import Mathlib

/-!
# Frame buffers of the Azure Percept eye module

A shallow embedding of `app/util/time_aligned_buffer.cpp` (namespace `timebuf`) and of the
rate estimation in `app/streaming/framebuffer.cpp` (namespace `rtsp`).

Modelling conventions.

* `cv::Mat` is an opaque payload: the buffer is generic in the frame type `F`; `default`
  of `Inhabited F` stands for the default-constructed `cv::Mat()`.
* `int64_t` timestamps are integers; every subtraction the program performs on them is
  reduced to the signed 64-bit range by `wrap64`.
* `size_t` values are natural numbers; `n_timestamped_frames *= 2` is taken modulo `2^64`.
* A failed `assert` (and `back()` on an empty vector) aborts the call: the embedded
  function returns `none`.
* `std::vector` is a `List`; `vector::erase(begin + start, begin + end)` is
  `take start ++ drop end`.
-/

/-- The constant `LLONG_MAX`, the largest signed 64-bit integer. -/
def LLONG_MAX : Int := 9223372036854775807

/-- The constant `LLONG_MIN`, the smallest signed 64-bit integer. -/
def LLONG_MIN : Int := -9223372036854775808

/-- Number of values of a `size_t` (64 bit). -/
def SIZE_MODULUS : Nat := 18446744073709551616

/-- Reduction of an integer to the signed 64-bit range (two's complement). -/
def wrap64 (x : Int) : Int :=
  (x + 9223372036854775808) % 18446744073709551616 - 9223372036854775808

/-- A value is representable as an `int64_t`. -/
def IsInt64 (x : Int) : Prop := LLONG_MIN ≤ x ∧ x ≤ LLONG_MAX

instance (x : Int) : Decidable (IsInt64 x) := by
  unfold IsInt64; infer_instance

namespace timebuf

/-- The private state of `class TimeAlignedBuffer` (`time_aligned_buffer.hpp`). -/
structure TimeAlignedBuffer (F : Type) where
  /-- The index to write something to. -/
  index : Nat
  /-- Number of timestamped frames that we can currently have in the buffer. -/
  n_timestamped_frames : Nat
  /-- The frame we return if there are no frames to return. -/
  default_value : F
  /-- The default timestamp we return if there are none to return. -/
  default_timestamp : Int
  /-- Circular buffer of frames with their timestamps. -/
  timestamped_frames : List (F × Int)
  deriving DecidableEq, Repr

/-- The constructor `TimeAlignedBuffer::TimeAlignedBuffer`: `index = 0`, `n = 10`, no slots. -/
def TimeAlignedBuffer.create {F : Type} (default_item : F) (default_timestamp : Int) :
    TimeAlignedBuffer F :=
  { index := 0
    n_timestamped_frames := 10
    default_value := default_item
    default_timestamp := default_timestamp
    timestamped_frames := [] }

/-- The method `TimeAlignedBuffer::put`. -/
def TimeAlignedBuffer.put {F : Type} (b : TimeAlignedBuffer F) (frame_and_ts : F × Int) :
    TimeAlignedBuffer F :=
  let frames :=
    if b.index ≥ b.timestamped_frames.length then
      -- Add a new slot
      b.timestamped_frames ++ [frame_and_ts]
    else
      -- Overwrite an old item's slot
      b.timestamped_frames.set b.index frame_and_ts
  let index := b.index + 1
  { b with
    timestamped_frames := frames
    index := if index ≥ b.n_timestamped_frames then 0 else index }

/-- The method `TimeAlignedBuffer::size`. -/
def TimeAlignedBuffer.size {F : Type} (b : TimeAlignedBuffer F) : Nat :=
  b.timestamped_frames.length

/-- The first loop of `remove_best_match_and_older`: walking the slots from index `i` on,
collect `(index, frame, timestamp)` of every slot whose timestamp is `≤ best_match_ts`.
The three vectors `indices_to_erase`, `best_and_older`, `best_and_older_ts` are the three
projections of the result. -/
def collect_best_and_older {F : Type} (best_match_ts : Int) :
    Nat → List (F × Int) → List (Nat × F × Int)
  | _, [] => []
  | i, tup :: rest =>
    if tup.2 ≤ best_match_ts then
      (i, tup.1, tup.2) :: collect_best_and_older best_match_ts (i + 1) rest
    else
      collect_best_and_older best_match_ts (i + 1) rest

/-- The method `TimeAlignedBuffer::remove_best_match_and_older`. The result is the new state
with the out-parameters `best_and_older` and `best_and_older_ts`; `none` when `back()` is
taken of an empty vector or an assertion fails. -/
def TimeAlignedBuffer.remove_best_match_and_older {F : Type} (b : TimeAlignedBuffer F)
    (best_match_ts : Int) : Option (TimeAlignedBuffer F × List F × List Int) :=
  let found := collect_best_and_older best_match_ts 0 b.timestamped_frames
  match found.head?, found.getLast? with
  | some first, some last =>
    let start := first.1
    let stop := last.1 + 1
    let frames := b.timestamped_frames.take start ++ b.timestamped_frames.drop stop
    let amount := (found.filter (fun m => decide (m.1 < b.index))).length
    if amount ≤ b.index then
      some ({ b with
              default_value := last.2.1
              timestamped_frames := frames
              index := b.index - amount },
            found.map (fun m => m.2.1), found.map (fun m => m.2.2))
    else
      none
  | _, _ => none

/-- The local variables of the scan in `find_oldest_and_best_matching`. -/
structure ScanState (F : Type) where
  oldest_frame : F
  oldest_ts : Int
  best_match_ts : Int
  smallest_time_difference : Int
  deriving DecidableEq, Repr

/-- The expression `(tup_ts > timestamp) ? (tup_ts - timestamp) : (timestamp - tup_ts)` of
`find_oldest_and_best_matching`, in signed 64-bit arithmetic. -/
def timedelta (tup_ts timestamp : Int) : Int :=
  if tup_ts > timestamp then wrap64 (tup_ts - timestamp) else wrap64 (timestamp - tup_ts)

/-- One iteration of the loop of `find_oldest_and_best_matching`. -/
def scan_step {F : Type} (timestamp : Int) (st : ScanState F) (tup : F × Int) : ScanState F :=
  let tup_ts := tup.2
  let st1 : ScanState F :=
    if tup_ts < st.oldest_ts then
      { st with oldest_frame := tup.1, oldest_ts := tup.2 }
    else st
  if timedelta tup_ts timestamp < st1.smallest_time_difference then
    { st1 with best_match_ts := tup.2, smallest_time_difference := timedelta tup_ts timestamp }
  else st1

/-- The values of the locals before the loop of `find_oldest_and_best_matching`. -/
def scan_init (F : Type) [Inhabited F] : ScanState F :=
  { oldest_frame := default
    oldest_ts := LLONG_MAX
    best_match_ts := 0
    smallest_time_difference := LLONG_MAX }

/-- The loop of `find_oldest_and_best_matching` over the stored slots. -/
def scan_frames {F : Type} [Inhabited F] (timestamp : Int) (frames : List (F × Int)) :
    ScanState F :=
  frames.foldl (scan_step timestamp) (scan_init F)

/-- The method `TimeAlignedBuffer::find_oldest_and_best_matching`: the out-parameters
`(oldest_frame, oldest_ts, best_match_ts)`, or `none` when one of its assertions fails. -/
def TimeAlignedBuffer.find_oldest_and_best_matching {F : Type} [Inhabited F]
    (b : TimeAlignedBuffer F) (timestamp : Int) : Option (F × Int × Int) :=
  if b.timestamped_frames.length = 0 then none
  else
    let st := scan_frames timestamp b.timestamped_frames
    if st.smallest_time_difference ≠ LLONG_MAX ∧ st.oldest_ts ≠ LLONG_MAX
        ∧ st.best_match_ts ≠ 0 then
      some (st.oldest_frame, st.oldest_ts, st.best_match_ts)
    else none

/-- The method `TimeAlignedBuffer::get_best_match_and_older`: the new state with the
out-parameters `out_frames` and `out_timestamps`, or `none` when an assertion fails.
The source passes only three arguments to `find_oldest_and_best_matching`; the query
`timestamp` is passed here, as the declaration in the header requires. -/
def TimeAlignedBuffer.get_best_match_and_older {F : Type} [Inhabited F]
    (b : TimeAlignedBuffer F) (timestamp : Int) :
    Option (TimeAlignedBuffer F × List F × List Int) :=
  if b.timestamped_frames.length = 0 then
    some (b, [b.default_value], [b.default_timestamp])
  else
    match b.find_oldest_and_best_matching timestamp with
    | none => none
    | some (oldest_frame, oldest_ts, best_match_ts) =>
      if oldest_ts > timestamp then
        if best_match_ts = oldest_ts then
          some ({ b with
                  n_timestamped_frames := (b.n_timestamped_frames * 2) % SIZE_MODULUS },
                [oldest_frame], [oldest_ts])
        else none
      else
        b.remove_best_match_and_older best_match_ts

/-- The states a client can bring a freshly constructed buffer into by calls of `put` and
`get_best_match_and_older` (a call that aborts reaches no state). -/
inductive Reachable {F : Type} [Inhabited F] : TimeAlignedBuffer F → Prop
  | create (default_item : F) (default_timestamp : Int) :
      Reachable (TimeAlignedBuffer.create default_item default_timestamp)
  | put {b : TimeAlignedBuffer F} (frame_and_ts : F × Int) :
      Reachable b → Reachable (b.put frame_and_ts)
  | get {b b' : TimeAlignedBuffer F} (timestamp : Int) (out_frames : List F)
      (out_timestamps : List Int) :
      Reachable b →
      b.get_best_match_and_older timestamp = some (b', out_frames, out_timestamps) →
      Reachable b'

/-- The states reached from a freshly constructed buffer when the timestamps passed to `put`
are strictly increasing and no capacity doubling has overflowed `size_t`. The first index is
the timestamp of the latest `put`, if any. -/
inductive ReachableIncreasing {F : Type} [Inhabited F] :
    Option Int → TimeAlignedBuffer F → Prop
  | create (default_item : F) (default_timestamp : Int) :
      ReachableIncreasing none (TimeAlignedBuffer.create default_item default_timestamp)
  | put {last : Option Int} {b : TimeAlignedBuffer F} (frame_and_ts : F × Int) :
      ReachableIncreasing last b →
      (∀ t, last = some t → t < frame_and_ts.2) →
      ReachableIncreasing (some frame_and_ts.2) (b.put frame_and_ts)
  | get {last : Option Int} {b b' : TimeAlignedBuffer F} (timestamp : Int)
      (out_frames : List F) (out_timestamps : List Int) :
      ReachableIncreasing last b →
      b.get_best_match_and_older timestamp = some (b', out_frames, out_timestamps) →
      (b'.n_timestamped_frames = b.n_timestamped_frames ∨
        b.n_timestamped_frames * 2 < SIZE_MODULUS) →
      ReachableIncreasing last b'

/-- The slots read cyclically from the write index: slots `index .. size() - 1` followed by
slots `0 .. index - 1`. -/
def TimeAlignedBuffer.ring_order {F : Type} (b : TimeAlignedBuffer F) : List (F × Int) :=
  b.timestamped_frames.drop b.index ++ b.timestamped_frames.take b.index

/-- A sequence of `put` calls with no other call in between, one per entry. -/
def TimeAlignedBuffer.puts {F : Type} (b : TimeAlignedBuffer F) :
    List (F × Int) → TimeAlignedBuffer F
  | [] => b
  | e :: es => (b.put e).puts es

/-- The call `get_best_match_and_older timestamp` reaches the capacity-doubling branch: the
buffer is not empty, the scan passes its assertions and `oldest_ts > timestamp`. -/
def TimeAlignedBuffer.takes_doubling_branch {F : Type} [Inhabited F]
    (b : TimeAlignedBuffer F) (timestamp : Int) : Bool :=
  if b.timestamped_frames.length = 0 then false
  else
    match b.find_oldest_and_best_matching timestamp with
    | none => false
    | some (_, oldest_ts, _) => decide (oldest_ts > timestamp)

/-- The states reached from a freshly constructed buffer by `put` and
`get_best_match_and_older` calls with arbitrary timestamps, as long as the product `n * 2`
of a capacity-doubling call fits the 64 bits of a `size_t`, so that the capacity the code
computes is the one an unbounded natural number would take. The index counts the calls
that took the capacity-doubling branch. -/
inductive ReachableDoublings {F : Type} [Inhabited F] : Nat → TimeAlignedBuffer F → Prop
  | create (default_item : F) (default_timestamp : Int) :
      ReachableDoublings 0 (TimeAlignedBuffer.create default_item default_timestamp)
  | put {k : Nat} {b : TimeAlignedBuffer F} (frame_and_ts : F × Int) :
      ReachableDoublings k b → ReachableDoublings k (b.put frame_and_ts)
  | get {k : Nat} {b b' : TimeAlignedBuffer F} (timestamp : Int) (out_frames : List F)
      (out_timestamps : List Int) :
      ReachableDoublings k b →
      b.get_best_match_and_older timestamp = some (b', out_frames, out_timestamps) →
      b.takes_doubling_branch timestamp = false →
      ReachableDoublings k b'
  | get_doubling {k : Nat} {b b' : TimeAlignedBuffer F} (timestamp : Int)
      (out_frames : List F) (out_timestamps : List Int) :
      ReachableDoublings k b →
      b.get_best_match_and_older timestamp = some (b', out_frames, out_timestamps) →
      b.takes_doubling_branch timestamp = true →
      b.n_timestamped_frames * 2 < SIZE_MODULUS →
      ReachableDoublings (k + 1) b'

end timebuf

namespace rtsp

/-- The constant `n_timestamps` of `FrameBuffer::put`. -/
def n_timestamps : Nat := 10

/-- The constant `a_day_in_ns = 8.64e13` of `FrameBuffer::put`. -/
def a_day_in_ns : Int := 86400000000000

/-- The part of the state of `class FrameBuffer` that `put` computes with: the window of the
last timestamps and the rate estimate `fps`. The rate is an exact rational; `none` stands
for the non-finite value a floating-point division by zero produces. The bounded queue
`circular_buffer` that `put` hands the frame to is an external collaborator and does not
enter the rate. -/
structure FrameBuffer where
  last_n_timestamps : List Int
  fps : Option ℚ

/-- The constructor `FrameBuffer::FrameBuffer(max_length, fps)`: empty window, the given
initial rate. -/
def FrameBuffer.create (_max_length : Nat) (fps : Int) : FrameBuffer :=
  { last_n_timestamps := []
    fps := some (fps : ℚ) }

/-- Division of two `double` values, exact on rationals; `none` when dividing by zero. -/
def double_div (x y : ℚ) : Option ℚ :=
  if y = 0 then none else some (x / y)

/-- The update of `last_n_timestamps` in `FrameBuffer::put`: `push_back`, then `pop_front`
when the window holds more than `n_timestamps` values. -/
def update_window (last_n_timestamps : List Int) (timestamp : Int) : List Int :=
  let pushed := last_n_timestamps ++ [timestamp]
  if pushed.length > n_timestamps then pushed.tail else pushed

/-- The method `FrameBuffer::put`, from the update of the timestamp window on. The
subtraction `ts1 - ts0` is signed 64-bit. The comparison of the `int64_t` span with the
`double` constant `8.64e13` is a comparison of integers: the conversion to `double` is
monotone and exact below `2^53`, which is above the constant. -/
def FrameBuffer.put (b : FrameBuffer) (timestamp : Int) : FrameBuffer :=
  let window := update_window b.last_n_timestamps timestamp
  if window.length ≥ 2 then
    let ts0 := window.headD 0
    let ts1 := window.getLastD 0
    if ts1 < ts0 then
      { last_n_timestamps := window, fps := b.fps }
    else
      let total_time_ns := wrap64 (ts1 - ts0)
      if total_time_ns > a_day_in_ns then
        { last_n_timestamps := window, fps := b.fps }
      else
        let total_time_s : ℚ := (total_time_ns : ℚ) / 1000000000
        { last_n_timestamps := window
          fps := double_div ((window.length - 1 : Nat) : ℚ) total_time_s }
  else
    { last_n_timestamps := window, fps := b.fps }

/-- A sequence of `put` calls, one per timestamp. -/
def FrameBuffer.puts (b : FrameBuffer) : List Int → FrameBuffer
  | [] => b
  | t :: ts => (b.put t).puts ts

/-- Subtraction of two `size_t` values, modulo `2^64`. -/
def size_sub (x y : Nat) : Nat :=
  (x + SIZE_MODULUS - y % SIZE_MODULUS) % SIZE_MODULUS

/-- The method `FrameBuffer::room`, as a function of what the bounded queue reports:
`capacity` is `circular_buffer.capacity()` and `size` is `circular_buffer.size_no_wait()`,
both `size_t`. -/
def FrameBuffer.room (capacity size : Nat) : Nat :=
  if size > capacity then 0 else size_sub capacity size

end rtsp

namespace timebuf

/-! ## Auxiliary facts about the scan of `find_oldest_and_best_matching` -/

theorem wrap64_of_nonneg_of_lt (x : Int) (h0 : 0 ≤ x) (h1 : x ≤ LLONG_MAX) : wrap64 x = x := by
  unfold wrap64
  unfold LLONG_MAX at h1
  omega

theorem wrap64_le_max (x : Int) : wrap64 x ≤ LLONG_MAX := by
  unfold wrap64 LLONG_MAX
  omega

theorem timedelta_eq_abs (ts q : Int) (h : |ts - q| ≤ LLONG_MAX) : timedelta ts q = |ts - q| := by
  unfold timedelta
  split
  · rename_i hgt
    have h0 : 0 ≤ ts - q := by omega
    rw [abs_of_nonneg h0] at h ⊢
    exact wrap64_of_nonneg_of_lt _ h0 h
  · rename_i hgt
    have h0 : ts - q ≤ 0 := by omega
    rw [abs_of_nonpos h0] at h ⊢
    have : -(ts - q) = q - ts := by ring
    rw [this] at h ⊢
    exact wrap64_of_nonneg_of_lt _ (by omega) h

theorem scan_step_oldest_ts {F : Type} (q : Int) (st : ScanState F) (e : F × Int) :
    (scan_step q st e).oldest_ts = if e.2 < st.oldest_ts then e.2 else st.oldest_ts := by
  unfold scan_step
  by_cases h1 : e.2 < st.oldest_ts <;>
    by_cases h2 : timedelta e.2 q < st.smallest_time_difference <;> simp [h1, h2]

theorem scan_step_oldest_frame {F : Type} (q : Int) (st : ScanState F) (e : F × Int) :
    (scan_step q st e).oldest_frame = if e.2 < st.oldest_ts then e.1 else st.oldest_frame := by
  unfold scan_step
  by_cases h1 : e.2 < st.oldest_ts <;>
    by_cases h2 : timedelta e.2 q < st.smallest_time_difference <;> simp [h1, h2]

theorem scan_step_smallest {F : Type} (q : Int) (st : ScanState F) (e : F × Int) :
    (scan_step q st e).smallest_time_difference =
      if timedelta e.2 q < st.smallest_time_difference then timedelta e.2 q
      else st.smallest_time_difference := by
  unfold scan_step
  by_cases h1 : e.2 < st.oldest_ts <;>
    by_cases h2 : timedelta e.2 q < st.smallest_time_difference <;> simp [h1, h2]

theorem scan_step_best {F : Type} (q : Int) (st : ScanState F) (e : F × Int) :
    (scan_step q st e).best_match_ts =
      if timedelta e.2 q < st.smallest_time_difference then e.2 else st.best_match_ts := by
  unfold scan_step
  by_cases h1 : e.2 < st.oldest_ts <;>
    by_cases h2 : timedelta e.2 q < st.smallest_time_difference <;> simp [h1, h2]

/-- Slots that are not older than the current oldest leave the oldest pair alone. -/
theorem foldl_oldest_keep {F : Type} (q : Int) (l : List (F × Int)) (st : ScanState F)
    (h : ∀ e ∈ l, st.oldest_ts ≤ e.2) :
    (l.foldl (scan_step q) st).oldest_ts = st.oldest_ts ∧
      (l.foldl (scan_step q) st).oldest_frame = st.oldest_frame := by
  induction l generalizing st with
  | nil => exact ⟨rfl, rfl⟩
  | cons e l ih =>
    have he : ¬ e.2 < st.oldest_ts := by
      have := h e (List.mem_cons_self _ _); omega
    have h1 : (scan_step q st e).oldest_ts = st.oldest_ts := by
      rw [scan_step_oldest_ts, if_neg he]
    have h2 : (scan_step q st e).oldest_frame = st.oldest_frame := by
      rw [scan_step_oldest_frame, if_neg he]
    have := ih (scan_step q st e) (by
      intro e' he'; rw [h1]; exact h e' (List.mem_cons_of_mem _ he'))
    rw [List.foldl_cons, this.1, this.2, h1, h2]
    exact ⟨rfl, rfl⟩

/-- A bound strictly below the current oldest and below every slot stays below. -/
theorem foldl_oldest_gt {F : Type} (q : Int) (l : List (F × Int)) (st : ScanState F) (x : Int)
    (h : ∀ e ∈ l, x < e.2) (hst : x < st.oldest_ts) :
    x < (l.foldl (scan_step q) st).oldest_ts := by
  induction l generalizing st with
  | nil => exact hst
  | cons e l ih =>
    rw [List.foldl_cons]
    apply ih
    · intro e' he'; exact h e' (List.mem_cons_of_mem _ he')
    · rw [scan_step_oldest_ts]
      split
      · exact h e (List.mem_cons_self _ _)
      · exact hst

/-- The scan finds as oldest the first slot in storage order with the minimal timestamp. -/
theorem foldl_oldest_first_min {F : Type} (q : Int) (pre post : List (F × Int)) (o : F × Int)
    (st : ScanState F) (hst : o.2 < st.oldest_ts)
    (hpre : ∀ e ∈ pre, o.2 < e.2) (hpost : ∀ e ∈ post, o.2 ≤ e.2) :
    ((pre ++ o :: post).foldl (scan_step q) st).oldest_ts = o.2 ∧
      ((pre ++ o :: post).foldl (scan_step q) st).oldest_frame = o.1 := by
  rw [List.foldl_append, List.foldl_cons]
  have hlt := foldl_oldest_gt q pre st o.2 hpre hst
  have h1 : (scan_step q (pre.foldl (scan_step q) st) o).oldest_ts = o.2 := by
    rw [scan_step_oldest_ts, if_pos hlt]
  have h2 : (scan_step q (pre.foldl (scan_step q) st) o).oldest_frame = o.1 := by
    rw [scan_step_oldest_frame, if_pos hlt]
  have := foldl_oldest_keep q post (scan_step q (pre.foldl (scan_step q) st) o) (by
    intro e he; rw [h1]; exact hpost e he)
  rw [this.1, this.2, h1, h2]
  exact ⟨rfl, rfl⟩

/-- Slots whose difference is not below the current smallest leave the best match alone. -/
theorem foldl_best_keep {F : Type} (q : Int) (l : List (F × Int)) (st : ScanState F)
    (h : ∀ e ∈ l, st.smallest_time_difference ≤ timedelta e.2 q) :
    (l.foldl (scan_step q) st).smallest_time_difference = st.smallest_time_difference ∧
      (l.foldl (scan_step q) st).best_match_ts = st.best_match_ts := by
  induction l generalizing st with
  | nil => exact ⟨rfl, rfl⟩
  | cons e l ih =>
    have he : ¬ timedelta e.2 q < st.smallest_time_difference := by
      have := h e (List.mem_cons_self _ _); omega
    have h1 : (scan_step q st e).smallest_time_difference = st.smallest_time_difference := by
      rw [scan_step_smallest, if_neg he]
    have h2 : (scan_step q st e).best_match_ts = st.best_match_ts := by
      rw [scan_step_best, if_neg he]
    have := ih (scan_step q st e) (by
      intro e' he'; rw [h1]; exact h e' (List.mem_cons_of_mem _ he'))
    rw [List.foldl_cons, this.1, this.2, h1, h2]
    exact ⟨rfl, rfl⟩

/-- A bound strictly below the current smallest difference and below every slot's
difference stays below. -/
theorem foldl_best_gt {F : Type} (q : Int) (l : List (F × Int)) (st : ScanState F) (x : Int)
    (h : ∀ e ∈ l, x < timedelta e.2 q) (hst : x < st.smallest_time_difference) :
    x < (l.foldl (scan_step q) st).smallest_time_difference := by
  induction l generalizing st with
  | nil => exact hst
  | cons e l ih =>
    rw [List.foldl_cons]
    apply ih
    · intro e' he'; exact h e' (List.mem_cons_of_mem _ he')
    · rw [scan_step_smallest]
      split
      · exact h e (List.mem_cons_self _ _)
      · exact hst

/-- The scan finds as best match the first slot in storage order with the minimal
computed difference. -/
theorem foldl_best_first_min {F : Type} (q : Int) (pre post : List (F × Int)) (m : F × Int)
    (st : ScanState F) (hst : timedelta m.2 q < st.smallest_time_difference)
    (hpre : ∀ e ∈ pre, timedelta m.2 q < timedelta e.2 q)
    (hpost : ∀ e ∈ post, timedelta m.2 q ≤ timedelta e.2 q) :
    ((pre ++ m :: post).foldl (scan_step q) st).smallest_time_difference = timedelta m.2 q ∧
      ((pre ++ m :: post).foldl (scan_step q) st).best_match_ts = m.2 := by
  rw [List.foldl_append, List.foldl_cons]
  have hlt := foldl_best_gt q pre st (timedelta m.2 q) hpre hst
  have h1 : (scan_step q (pre.foldl (scan_step q) st) m).smallest_time_difference
      = timedelta m.2 q := by
    rw [scan_step_smallest, if_pos hlt]
  have h2 : (scan_step q (pre.foldl (scan_step q) st) m).best_match_ts = m.2 := by
    rw [scan_step_best, if_pos hlt]
  have := foldl_best_keep q post (scan_step q (pre.foldl (scan_step q) st) m) (by
    intro e he; rw [h1]; exact hpost e he)
  rw [this.1, this.2, h1, h2]
  exact ⟨rfl, rfl⟩

/-! ## Auxiliary facts about the collecting loop of `remove_best_match_and_older` -/

theorem collect_append {F : Type} (x : Int) (l1 l2 : List (F × Int)) (i : Nat) :
    collect_best_and_older x i (l1 ++ l2) =
      collect_best_and_older x i l1 ++ collect_best_and_older x (i + l1.length) l2 := by
  induction l1 generalizing i with
  | nil => simp [collect_best_and_older]
  | cons e l ih =>
    have hi : i + (l.length + 1) = i + 1 + l.length := by omega
    rw [List.cons_append]
    by_cases he : e.2 ≤ x
    · simp only [collect_best_and_older, if_pos he, List.length_cons, ih, hi, List.cons_append]
    · simp only [collect_best_and_older, if_neg he, List.length_cons, ih, hi]

theorem collect_none {F : Type} (x : Int) (l : List (F × Int)) (i : Nat)
    (h : ∀ e ∈ l, x < e.2) : collect_best_and_older x i l = [] := by
  induction l generalizing i with
  | nil => rfl
  | cons e l ih =>
    have he : ¬ e.2 ≤ x := by have := h e (List.mem_cons_self _ _); omega
    simp only [collect_best_and_older, if_neg he]
    exact ih _ (fun e' he' => h e' (List.mem_cons_of_mem _ he'))

theorem collect_map_frames {F : Type} (x : Int) (l : List (F × Int)) (i : Nat) :
    (collect_best_and_older x i l).map (fun m => m.2.1) =
      (l.filter (fun e => decide (e.2 ≤ x))).map Prod.fst := by
  induction l generalizing i with
  | nil => rfl
  | cons e l ih =>
    simp only [collect_best_and_older]
    by_cases he : e.2 ≤ x
    · simp [he, ih]
    · simp [he, ih]

theorem collect_map_ts {F : Type} (x : Int) (l : List (F × Int)) (i : Nat) :
    (collect_best_and_older x i l).map (fun m => m.2.2) =
      (l.filter (fun e => decide (e.2 ≤ x))).map Prod.snd := by
  induction l generalizing i with
  | nil => rfl
  | cons e l ih =>
    simp only [collect_best_and_older]
    by_cases he : e.2 ≤ x
    · simp [he, ih]
    · simp [he, ih]

/-- The number of collected indices below `idx` is at most `idx`: the assertion
`amount <= this->index` cannot fail. -/
theorem collect_amount_le {F : Type} (x : Int) (l : List (F × Int)) (i idx : Nat) :
    ((collect_best_and_older x i l).filter (fun m => decide (m.1 < idx))).length ≤ idx - i := by
  induction l generalizing i with
  | nil => simp [collect_best_and_older]
  | cons e l ih =>
    simp only [collect_best_and_older]
    have := ih (i + 1)
    split
    · by_cases hi : i < idx
      · simp only [List.filter_cons, hi, decide_True, if_true, List.length_cons]
        omega
      · simp only [List.filter_cons, hi, decide_False]
        simp only [Bool.false_eq_true, if_false]
        omega
    · omega

theorem collect_amount_zero {F : Type} (x : Int) (l : List (F × Int)) (i idx : Nat)
    (h : idx ≤ i) :
    ((collect_best_and_older x i l).filter (fun m => decide (m.1 < idx))).length = 0 := by
  have := collect_amount_le x l i idx
  omega

theorem collect_amount_all {F : Type} (x : Int) (l : List (F × Int)) (i idx : Nat)
    (hall : ∀ e ∈ l, e.2 ≤ x) (h : i + l.length ≤ idx) :
    ((collect_best_and_older x i l).filter (fun m => decide (m.1 < idx))).length = l.length := by
  induction l generalizing i with
  | nil => simp [collect_best_and_older]
  | cons e l ih =>
    have he : e.2 ≤ x := hall e (List.mem_cons_self _ _)
    simp only [List.length_cons] at h
    have hi : i < idx := by omega
    simp only [collect_best_and_older, if_pos he, List.filter_cons, hi, decide_True, if_true,
      List.length_cons]
    rw [ih (i + 1) (fun e' he' => hall e' (List.mem_cons_of_mem _ he')) (by omega)]

theorem collect_head {F : Type} (x : Int) (e : F × Int) (l : List (F × Int)) (i : Nat)
    (he : e.2 ≤ x) : (collect_best_and_older x i (e :: l)).head? = some (i, e.1, e.2) := by
  simp [collect_best_and_older, he]

theorem collect_getLast {F : Type} (x : Int) (e : F × Int) (l : List (F × Int)) (i : Nat)
    (he : e.2 ≤ x) :
    (collect_best_and_older x i (l ++ [e])).getLast? = some (i + l.length, e.1, e.2) := by
  rw [collect_append]
  simp [collect_best_and_older, he]

/-- What `remove_best_match_and_older` does when the slots split as `P ++ M ++ S` with no match
in `P` and `S`, and `M` starting and ending with a match: the block `M` is erased as a whole
and its matching slots are returned. -/
theorem remove_hull {F : Type} (b : TimeAlignedBuffer F) (x : Int)
    (P M' S : List (F × Int)) (a z : F × Int) (M'' : List (F × Int))
    (hfr : b.timestamped_frames = P ++ (a :: M') ++ S)
    (hM : a :: M' = M'' ++ [z])
    (hP : ∀ e ∈ P, x < e.2) (hS : ∀ e ∈ S, x < e.2) (ha : a.2 ≤ x) (hz : z.2 ≤ x) :
    b.remove_best_match_and_older x =
      some ({ b with
              default_value := z.1
              timestamped_frames := P ++ S
              index := b.index -
                ((collect_best_and_older x P.length (a :: M')).filter
                  (fun m => decide (m.1 < b.index))).length },
            ((a :: M').filter (fun e => decide (e.2 ≤ x))).map Prod.fst,
            ((a :: M').filter (fun e => decide (e.2 ≤ x))).map Prod.snd) := by
  have hfound : collect_best_and_older x 0 b.timestamped_frames
      = collect_best_and_older x P.length (a :: M') := by
    rw [hfr, collect_append, collect_append, collect_none x P 0 hP,
      collect_none x S _ hS]
    simp
  have hhead : (collect_best_and_older x P.length (a :: M')).head?
      = some (P.length, a.1, a.2) := collect_head x a M' _ ha
  have hlast : (collect_best_and_older x P.length (a :: M')).getLast?
      = some (P.length + M''.length, z.1, z.2) := by
    rw [hM]; exact collect_getLast x z M'' _ hz
  have hlen : (a :: M').length = M''.length + 1 := by rw [hM]; simp
  have hamt := collect_amount_le x (a :: M') P.length b.index
  unfold TimeAlignedBuffer.remove_best_match_and_older
  simp only [hfound, hhead, hlast]
  rw [if_pos (by omega)]
  have htake : b.timestamped_frames.take P.length = P := by
    rw [hfr, List.append_assoc, List.take_left]
  have hdrop : b.timestamped_frames.drop (P.length + M''.length + 1) = S := by
    rw [hfr]
    have : P.length + M''.length + 1 = (P ++ (a :: M')).length := by
      rw [List.length_append, hlen]; omega
    rw [this, List.drop_left]
  rw [htake, hdrop, collect_map_frames, collect_map_ts]

/-- Every non-empty list has a first element minimising an integer key. -/
theorem exists_first_min {α : Type} (k : α → Int) (l : List α) (hl : l ≠ []) :
    ∃ pre m post, l = pre ++ m :: post ∧ (∀ e ∈ pre, k m < k e) ∧ (∀ e ∈ post, k m ≤ k e) := by
  induction l with
  | nil => exact absurd rfl hl
  | cons a l ih =>
    by_cases hnil : l = []
    · subst hnil
      exact ⟨[], a, [], rfl, by simp, by simp⟩
    · obtain ⟨pre, m, post, hl', hpre, hpost⟩ := ih hnil
      by_cases ham : k a ≤ k m
      · refine ⟨[], a, l, rfl, by simp, ?_⟩
        intro e he
        rw [hl'] at he
        rcases List.mem_append.1 he with h | h
        · have := hpre e h; omega
        · rcases List.mem_cons.1 h with h | h
          · rw [h]; exact ham
          · have := hpost e h; omega
      · refine ⟨a :: pre, m, post, by rw [hl']; rfl, ?_, hpost⟩
        intro e he
        rcases List.mem_cons.1 he with h | h
        · rw [h]; omega
        · exact hpre e h

/-- The element of a first-minimum decomposition is a minimum of the whole list. -/
theorem first_min_le {α : Type} (k : α → Int) (pre post : List α) (m : α)
    (hpre : ∀ e ∈ pre, k m < k e) (hpost : ∀ e ∈ post, k m ≤ k e) :
    ∀ e ∈ pre ++ m :: post, k m ≤ k e := by
  intro e he
  rcases List.mem_append.1 he with h | h
  · exact le_of_lt (hpre e h)
  · rcases List.mem_cons.1 h with h | h
    · rw [h]
    · exact hpost e h

/-- A list with non-decreasing timestamps splits into the slots `≤ x` followed by the
slots `> x`. -/
theorem sorted_split {F : Type} (l : List (F × Int)) (x : Int)
    (h : l.Pairwise (fun e1 e2 => e1.2 ≤ e2.2)) :
    ∃ A1 A2, l = A1 ++ A2 ∧ (∀ e ∈ A1, e.2 ≤ x) ∧ (∀ e ∈ A2, x < e.2) := by
  induction l with
  | nil => exact ⟨[], [], rfl, by simp, by simp⟩
  | cons a l ih =>
    rw [List.pairwise_cons] at h
    by_cases ha : a.2 ≤ x
    · obtain ⟨A1, A2, hl, h1, h2⟩ := ih h.2
      refine ⟨a :: A1, A2, by rw [hl]; rfl, ?_, h2⟩
      intro e he
      rcases List.mem_cons.1 he with h' | h'
      · rw [h']; exact ha
      · exact h1 e h'
    · refine ⟨[], a :: l, rfl, by simp, ?_⟩
      intro e he
      rcases List.mem_cons.1 he with h' | h'
      · rw [h']; omega
      · have := h.1 e h'; omega

theorem filter_le_of_split {F : Type} (A1 A2 : List (F × Int)) (x : Int)
    (h1 : ∀ e ∈ A1, e.2 ≤ x) (h2 : ∀ e ∈ A2, x < e.2) :
    (A1 ++ A2).filter (fun e => decide (e.2 ≤ x)) = A1 := by
  rw [List.filter_append]
  have e1 : A1.filter (fun e => decide (e.2 ≤ x)) = A1 :=
    List.filter_eq_self.2 (fun e he => by simpa using h1 e he)
  have e2 : A2.filter (fun e => decide (e.2 ≤ x)) = [] :=
    List.filter_eq_nil_iff.2 (fun e he => by have := h2 e he; simp; omega)
  rw [e1, e2, List.append_nil]

theorem filter_gt_of_split {F : Type} (A1 A2 : List (F × Int)) (x : Int)
    (h1 : ∀ e ∈ A1, e.2 ≤ x) (h2 : ∀ e ∈ A2, x < e.2) :
    (A1 ++ A2).filter (fun e => decide (x < e.2)) = A2 := by
  rw [List.filter_append]
  have e1 : A1.filter (fun e => decide (x < e.2)) = [] :=
    List.filter_eq_nil_iff.2 (fun e he => by have := h1 e he; simp; omega)
  have e2 : A2.filter (fun e => decide (x < e.2)) = A2 :=
    List.filter_eq_self.2 (fun e he => by simpa using h2 e he)
  rw [e1, e2, List.nil_append]

/-- The result of `find_oldest_and_best_matching` from a first-minimum decomposition of the
slots by timestamp and one by computed difference. -/
theorem find_eq {F : Type} [Inhabited F] (b : TimeAlignedBuffer F) (q : Int)
    (pre post pre' post' : List (F × Int)) (o m : F × Int)
    (h1 : b.timestamped_frames = pre ++ o :: post) (ho : o.2 < LLONG_MAX)
    (hpre : ∀ e ∈ pre, o.2 < e.2) (hpost : ∀ e ∈ post, o.2 ≤ e.2)
    (h2 : b.timestamped_frames = pre' ++ m :: post') (hm : timedelta m.2 q < LLONG_MAX)
    (hpre' : ∀ e ∈ pre', timedelta m.2 q < timedelta e.2 q)
    (hpost' : ∀ e ∈ post', timedelta m.2 q ≤ timedelta e.2 q) (hnz : m.2 ≠ 0) :
    b.find_oldest_and_best_matching q = some (o.1, o.2, m.2) := by
  have hold := foldl_oldest_first_min q pre post o (scan_init F) ho hpre hpost
  have hbest := foldl_best_first_min q pre' post' m (scan_init F) hm hpre' hpost'
  rw [← h1] at hold
  rw [← h2] at hbest
  unfold TimeAlignedBuffer.find_oldest_and_best_matching
  have hlen : ¬ b.timestamped_frames.length = 0 := by rw [h1]; simp
  rw [if_neg hlen]
  simp only [scan_frames, hold.1, hold.2, hbest.1, hbest.2]
  rw [if_pos ⟨by omega, by omega, hnz⟩]

theorem timedelta_le_max (ts q : Int) : timedelta ts q ≤ LLONG_MAX := by
  unfold timedelta
  split <;> exact wrap64_le_max _

/-- The two outcomes of `get_best_match_and_older` on a non-empty buffer, from the result of
the scan. -/
theorem get_of_find {F : Type} [Inhabited F] (b : TimeAlignedBuffer F) (q : Int)
    (o_frame : F) (o_ts m_ts : Int) (hne : b.timestamped_frames ≠ [])
    (hfind : b.find_oldest_and_best_matching q = some (o_frame, o_ts, m_ts)) :
    b.get_best_match_and_older q =
      if o_ts > q then
        if m_ts = o_ts then
          some ({ b with
                  n_timestamped_frames := (b.n_timestamped_frames * 2) % SIZE_MODULUS },
                [o_frame], [o_ts])
        else none
      else b.remove_best_match_and_older m_ts := by
  unfold TimeAlignedBuffer.get_best_match_and_older
  have hlen : ¬ b.timestamped_frames.length = 0 := by
    intro h; exact hne (List.length_eq_zero.1 h)
  rw [if_neg hlen, hfind]

/-! ## Claims about `get_best_match_and_older` and the scan -/

/-- Away from the marker value `LLONG_MAX` of the scan: for stored entries with nonzero
timestamps whose smallest timestamp is below `LLONG_MAX`, and a query `q` with every
`|ts - q|` below `LLONG_MAX`, `find_oldest_and_best_matching` yields as oldest the first
entry in storage order with the minimal timestamp and as `best_match_ts` the timestamp of
the first entry in storage order minimising `|ts - q|`. -/
theorem find_first_minima {F : Type} [Inhabited F] (b : TimeAlignedBuffer F)
    (q : Int) (pre post pre' post' : List (F × Int)) (o m : F × Int)
    (h1 : b.timestamped_frames = pre ++ o :: post)
    (hpre : ∀ e ∈ pre, o.2 < e.2) (hpost : ∀ e ∈ post, o.2 ≤ e.2)
    (h2 : b.timestamped_frames = pre' ++ m :: post')
    (hpre' : ∀ e ∈ pre', |m.2 - q| < |e.2 - q|) (hpost' : ∀ e ∈ post', |m.2 - q| ≤ |e.2 - q|)
    (hnz : ∀ e ∈ b.timestamped_frames, e.2 ≠ 0)
    (hfit : ∀ e ∈ b.timestamped_frames, |e.2 - q| < LLONG_MAX)
    (ho : o.2 < LLONG_MAX) :
    b.find_oldest_and_best_matching q = some (o.1, o.2, m.2) := by
  have hd : ∀ e ∈ b.timestamped_frames, timedelta e.2 q = |e.2 - q| :=
    fun e he => timedelta_eq_abs e.2 q (le_of_lt (hfit e he))
  have hm_mem : m ∈ b.timestamped_frames := by rw [h2]; simp
  have hmem_pre : ∀ e ∈ pre', e ∈ b.timestamped_frames := by
    intro e he; rw [h2]; simp [he]
  have hmem_post : ∀ e ∈ post', e ∈ b.timestamped_frames := by
    intro e he; rw [h2]; simp [he]
  refine find_eq b q pre post pre' post' o m h1 ho hpre hpost h2 ?_ ?_ ?_ (hnz m hm_mem)
  · rw [hd m hm_mem]; exact hfit m hm_mem
  · intro e he
    rw [hd m hm_mem, hd e (hmem_pre e he)]; exact hpre' e he
  · intro e he
    rw [hd m hm_mem, hd e (hmem_post e he)]; exact hpost' e he

/-- C6, the code at the failing input: on the slots `[5, 10, 15, 20]` with the query `12` the
scan yields the oldest entry `5` and the best match `10`, as the claim says; on the single
stored entry `(7, LLONG_MAX)`, a nonzero timestamp, with the query `LLONG_MAX`, difference
`0`, the test `tup_ts < oldest_ts` is false, the oldest frame stays the default-constructed
one and the assertion `oldest_ts != LLONG_MAX` fails. -/
theorem C6_llong_max_entry_is_never_oldest :
    (TimeAlignedBuffer.mk 4 10 0 0 [(1, 5), (2, 10), (3, 15), (4, 20)]
        : TimeAlignedBuffer Nat).find_oldest_and_best_matching 12 = some (1, 5, 10) ∧
      (∀ e ∈ ((TimeAlignedBuffer.create (0 : Nat) 0).put (7, LLONG_MAX)).timestamped_frames,
        e.2 ≠ 0 ∧ |e.2 - LLONG_MAX| < LLONG_MAX) ∧
      (scan_frames LLONG_MAX
        ((TimeAlignedBuffer.create (0 : Nat) 0).put (7, LLONG_MAX)).timestamped_frames
        ).oldest_frame = default ∧
      (scan_frames LLONG_MAX
        ((TimeAlignedBuffer.create (0 : Nat) 0).put (7, LLONG_MAX)).timestamped_frames
        ).oldest_ts = LLONG_MAX ∧
      ((TimeAlignedBuffer.create (0 : Nat) 0).put
        (7, LLONG_MAX)).find_oldest_and_best_matching LLONG_MAX = none := by
  decide

/-- Away from the marker values of the scan: for a non-empty buffer whose stored timestamps
are non-decreasing in storage order and nonzero, whose smallest timestamp is `≤ q` and below
`LLONG_MAX`, and in which at least one computed difference to `q` is not `LLONG_MAX`,
`get_best_match_and_older q` returns exactly the stored entries with timestamp `≤ b`, where
`b` is the timestamp of the first entry minimising the computed difference to `q`, as
parallel lists in storage order, and the buffer then holds exactly the entries with
timestamp `> b` in their original order. -/
theorem drain_of_sorted_slots {F : Type} [Inhabited F]
    (b : TimeAlignedBuffer F) (q : Int)
    (hsorted : b.timestamped_frames.Pairwise (fun e1 e2 => e1.2 ≤ e2.2))
    (hnz : ∀ e ∈ b.timestamped_frames, e.2 ≠ 0)
    (hq : ∃ e ∈ b.timestamped_frames, e.2 ≤ q)
    (hmax : ∃ e ∈ b.timestamped_frames, e.2 < LLONG_MAX)
    (hdelta : ∃ e ∈ b.timestamped_frames, timedelta e.2 q ≠ LLONG_MAX) :
    ∃ pre m post, b.timestamped_frames = pre ++ m :: post ∧
      (∀ e ∈ pre, timedelta m.2 q < timedelta e.2 q) ∧
      (∀ e ∈ post, timedelta m.2 q ≤ timedelta e.2 q) ∧
      ∃ b', b.get_best_match_and_older q =
          some (b',
            (b.timestamped_frames.filter (fun e => decide (e.2 ≤ m.2))).map Prod.fst,
            (b.timestamped_frames.filter (fun e => decide (e.2 ≤ m.2))).map Prod.snd) ∧
        b'.timestamped_frames = b.timestamped_frames.filter (fun e => decide (m.2 < e.2)) := by
  have hne : b.timestamped_frames ≠ [] := by
    obtain ⟨e, he, _⟩ := hq
    exact List.ne_nil_of_mem he
  obtain ⟨pre', m, post', h2, hpre', hpost'⟩ :=
    exists_first_min (fun e : F × Int => timedelta e.2 q) b.timestamped_frames hne
  obtain ⟨pre, o, post, h1, hpre, hpost⟩ :=
    exists_first_min (fun e : F × Int => e.2) b.timestamped_frames hne
  have hmin_d := first_min_le (fun e : F × Int => timedelta e.2 q) pre' post' m hpre' hpost'
  have hmin_o := first_min_le (fun e : F × Int => e.2) pre post o hpre hpost
  rw [← h2] at hmin_d
  rw [← h1] at hmin_o
  have hm_mem : m ∈ b.timestamped_frames := by rw [h2]; simp
  have hm : timedelta m.2 q < LLONG_MAX := by
    obtain ⟨e, he, hne'⟩ := hdelta
    have h3 := hmin_d e he
    have h4 := timedelta_le_max e.2 q
    simp only at h3
    omega
  have ho : o.2 < LLONG_MAX := by
    obtain ⟨e, he, hlt⟩ := hmax
    have h3 := hmin_o e he
    simp only at h3
    omega
  have hfind := find_eq b q pre post pre' post' o m h1 ho hpre hpost h2 hm hpre' hpost'
    (hnz m hm_mem)
  have hbranch : ¬ o.2 > q := by
    obtain ⟨e, he, hle⟩ := hq
    have h3 := hmin_o e he
    simp only at h3
    omega
  obtain ⟨A1, A2, hsplit, hA1, hA2⟩ := sorted_split b.timestamped_frames m.2 hsorted
  have hA1ne : A1 ≠ [] := by
    intro hnil
    rw [hsplit, hnil, List.nil_append] at hm_mem
    have := hA2 m hm_mem
    omega
  obtain ⟨a, M', hcons⟩ := List.exists_cons_of_ne_nil hA1ne
  obtain ⟨M'', z, hconcat⟩ : ∃ M'' z, A1 = M'' ++ [z] := by
    rcases List.eq_nil_or_concat A1 with h | ⟨L, c, h⟩
    · exact absurd h hA1ne
    · exact ⟨L, c, by simpa using h⟩
  have hrem := remove_hull b m.2 [] M' A2 a z M''
    (by rw [hsplit, hcons]; rfl) (by rw [← hcons, hconcat]) (by simp) hA2
    (hA1 a (by rw [hcons]; simp)) (hA1 z (by rw [hconcat]; simp))
  refine ⟨pre', m, post', h2, hpre', hpost', ?_⟩
  rw [get_of_find b q o.1 o.2 m.2 hne hfind, if_neg hbranch, hrem]
  have hf1 : b.timestamped_frames.filter (fun e => decide (e.2 ≤ m.2)) = a :: M' := by
    rw [hsplit, filter_le_of_split A1 A2 m.2 hA1 hA2, hcons]
  have hf2 : (a :: M').filter (fun e => decide (e.2 ≤ m.2)) = a :: M' :=
    List.filter_eq_self.2 (fun e he => by simpa using hA1 e (by rw [hcons]; exact he))
  have hf3 : b.timestamped_frames.filter (fun e => decide (m.2 < e.2)) = A2 := by
    rw [hsplit, filter_gt_of_split A1 A2 m.2 hA1 hA2]
  rw [hf1, hf2, hf3]
  exact ⟨_, rfl, by simp⟩

/-- C1, the code at the failing input: on the stored timestamps `[5, 10, 15, 20]` the query
`12` returns `[5, 10]` and leaves `[15, 20]`, as the claim says; on a fresh buffer after
`put (7, LLONG_MAX)` the stored timestamps are non-decreasing, nonzero and the smallest is
`≤ q` for `q = LLONG_MAX`, but the scan never takes the entry as oldest, the assertion
`oldest_ts != LLONG_MAX` fails and the call aborts instead of returning the entry. -/
theorem C1_llong_max_entry_aborts_drain :
    (TimeAlignedBuffer.mk 4 10 0 0 [(1, 5), (2, 10), (3, 15), (4, 20)]
        : TimeAlignedBuffer Nat).get_best_match_and_older 12 =
        some (TimeAlignedBuffer.mk 2 10 2 0 [(3, 15), (4, 20)], [1, 2], [5, 10]) ∧
      ((TimeAlignedBuffer.create (0 : Nat) 0).put (7, LLONG_MAX)).timestamped_frames
        = [(7, LLONG_MAX)] ∧
      ((TimeAlignedBuffer.create (0 : Nat) 0).put (7, LLONG_MAX)).timestamped_frames.Pairwise
        (fun e1 e2 => e1.2 ≤ e2.2) ∧
      (∀ e ∈ ((TimeAlignedBuffer.create (0 : Nat) 0).put (7, LLONG_MAX)).timestamped_frames,
        e.2 ≠ 0 ∧ e.2 ≤ LLONG_MAX) ∧
      ((TimeAlignedBuffer.create (0 : Nat) 0).put
        (7, LLONG_MAX)).get_best_match_and_older LLONG_MAX = none := by
  decide

/-- C5: on a buffer holding zero entries, `get_best_match_and_older` returns exactly one
frame and one timestamp, the stored default pair, and leaves every field of the buffer
unchanged, whatever the query timestamp. -/
theorem C5_get_on_empty_returns_default {F : Type} [Inhabited F] (b : TimeAlignedBuffer F)
    (q : Int) (hempty : b.size = 0) :
    b.get_best_match_and_older q = some (b, [b.default_value], [b.default_timestamp]) := by
  unfold TimeAlignedBuffer.size at hempty
  unfold TimeAlignedBuffer.get_best_match_and_older
  rw [if_pos hempty]

/-- Witness of C5: a freshly constructed buffer, and a buffer emptied by a drain. -/
theorem C5_get_on_empty_returns_default_witness :
    (TimeAlignedBuffer.create (3 : Nat) 42).size = 0 ∧
    (TimeAlignedBuffer.create (3 : Nat) 42).get_best_match_and_older 7 =
      some (TimeAlignedBuffer.create (3 : Nat) 42, [3], [42]) ∧
    (TimeAlignedBuffer.mk 0 10 (8 : Nat) 42 []).get_best_match_and_older (-1) =
      some (TimeAlignedBuffer.mk 0 10 (8 : Nat) 42 [], [8], [42]) :=
  ⟨rfl, C5_get_on_empty_returns_default (TimeAlignedBuffer.create (3 : Nat) 42) 7 rfl,
    C5_get_on_empty_returns_default (TimeAlignedBuffer.mk 0 10 (8 : Nat) 42 []) (-1) rfl⟩

/-- Away from the marker values of the scan and from overflow: for a non-empty buffer whose
smallest stored timestamp is nonzero and below `LLONG_MAX`, whose capacity `n` is below
`2^63`, and a query `q` strictly smaller than the smallest stored timestamp with every
`ts - q` below `LLONG_MAX`, `get_best_match_and_older q` doubles `n`, returns the
one-element result made of the first entry with the smallest timestamp, and leaves the
stored entries, the write index and the stored pair of defaults unchanged. -/
theorem doubling_of_early_query {F : Type} [Inhabited F] (b : TimeAlignedBuffer F) (q : Int)
    (pre post : List (F × Int)) (o : F × Int)
    (h1 : b.timestamped_frames = pre ++ o :: post)
    (hpre : ∀ e ∈ pre, o.2 < e.2) (hpost : ∀ e ∈ post, o.2 ≤ e.2)
    (hq : q < o.2) (hnz : o.2 ≠ 0) (ho : o.2 < LLONG_MAX)
    (hfit : ∀ e ∈ b.timestamped_frames, e.2 - q < LLONG_MAX)
    (hn : b.n_timestamped_frames * 2 < SIZE_MODULUS) :
    b.get_best_match_and_older q =
      some ({ b with n_timestamped_frames := 2 * b.n_timestamped_frames }, [o.1], [o.2]) := by
  have hne : b.timestamped_frames ≠ [] := by rw [h1]; simp
  have hmin := first_min_le (fun e : F × Int => e.2) pre post o hpre hpost
  rw [← h1] at hmin
  have hd : ∀ e ∈ b.timestamped_frames, timedelta e.2 q = e.2 - q := by
    intro e he
    have h3 := hmin e he
    have h4 := hfit e he
    simp only at h3
    unfold timedelta
    rw [if_pos (by omega)]
    exact wrap64_of_nonneg_of_lt _ (by omega) (by omega)
  have ho_mem : o ∈ b.timestamped_frames := by rw [h1]; simp
  have hmem_pre : ∀ e ∈ pre, e ∈ b.timestamped_frames := by
    intro e he; rw [h1]; simp [he]
  have hmem_post : ∀ e ∈ post, e ∈ b.timestamped_frames := by
    intro e he; rw [h1]; simp [he]
  have hfind := find_eq b q pre post pre post o o h1 ho hpre hpost h1
    (by rw [hd o ho_mem]; exact hfit o ho_mem)
    (by intro e he; rw [hd o ho_mem, hd e (hmem_pre e he)]; have := hpre e he; omega)
    (by intro e he; rw [hd o ho_mem, hd e (hmem_post e he)]; have := hpost e he; omega)
    hnz
  rw [get_of_find b q o.1 o.2 o.2 hne hfind, if_pos (by omega), if_pos rfl,
    Nat.mod_eq_of_lt hn, Nat.mul_comm]

/-- C4, the code at the failing input: on the slots `[15, 20]` the query `12` doubles the
capacity from `10` to `20` and returns the entry with timestamp `15`, as the claim says; on
a fresh buffer after `put (7, LLONG_MAX)` the query `0` is strictly smaller than the
smallest stored timestamp, but the scan never takes the entry as oldest, the assertion
`oldest_ts != LLONG_MAX` fails and the call aborts instead of returning the entry. -/
theorem C4_llong_max_entry_aborts_doubling :
    (TimeAlignedBuffer.mk 2 10 0 0 [(3, 15), (4, 20)]
        : TimeAlignedBuffer Nat).get_best_match_and_older 12 =
        some (TimeAlignedBuffer.mk 2 20 0 0 [(3, 15), (4, 20)], [3], [15]) ∧
      ((TimeAlignedBuffer.create (0 : Nat) 0).put (7, LLONG_MAX)).timestamped_frames
        = [(7, LLONG_MAX)] ∧
      (0 : Int) < LLONG_MAX ∧
      (scan_frames 0
        ((TimeAlignedBuffer.create (0 : Nat) 0).put (7, LLONG_MAX)).timestamped_frames
        ).oldest_frame = default ∧
      ((TimeAlignedBuffer.create (0 : Nat) 0).put
        (7, LLONG_MAX)).get_best_match_and_older 0 = none := by
  decide

/-- Away from the marker values of the scan and from overflow: for every frame `f` and every
nonzero timestamp `t` below `LLONG_MAX`, if after `put (f, t)` every other stored entry has a
timestamp strictly greater than `t`, with `ts - t` below `LLONG_MAX`, then the immediately
following `get_best_match_and_older t` returns exactly `[f]` with `[t]` and removes that
entry and no other. -/
theorem roundtrip_of_put {F : Type} [Inhabited F] (b : TimeAlignedBuffer F)
    (f : F) (t : Int) (pre post : List (F × Int))
    (hfr : (b.put (f, t)).timestamped_frames = pre ++ (f, t) :: post)
    (hothers : ∀ e ∈ pre ++ post, t < e.2 ∧ e.2 - t < LLONG_MAX)
    (hnz : t ≠ 0) (hmax : t < LLONG_MAX) :
    ∃ b', (b.put (f, t)).get_best_match_and_older t = some (b', [f], [t]) ∧
      b'.timestamped_frames = pre ++ post := by
  have hne : (b.put (f, t)).timestamped_frames ≠ [] := by rw [hfr]; simp
  have hd0 : timedelta t t = 0 := by
    unfold timedelta
    rw [if_neg (by omega), sub_self]
    exact wrap64_of_nonneg_of_lt 0 (le_refl 0) (by decide)
  have hd : ∀ e ∈ pre ++ post, timedelta e.2 t = e.2 - t := by
    intro e he
    have h3 := hothers e he
    unfold timedelta
    rw [if_pos (by omega)]
    exact wrap64_of_nonneg_of_lt _ (by omega) (by omega)
  have hfind := find_eq (b.put (f, t)) t pre post pre post (f, t) (f, t) hfr hmax
    (fun e he => (hothers e (List.mem_append_left _ he)).1)
    (fun e he => le_of_lt (hothers e (List.mem_append_right _ he)).1)
    hfr (by simp only [hd0]; unfold LLONG_MAX; omega)
    (by
      intro e he
      have h3 := hothers e (List.mem_append_left _ he)
      simp only [hd0, hd e (List.mem_append_left _ he)]; omega)
    (by
      intro e he
      have h3 := hothers e (List.mem_append_right _ he)
      simp only [hd0, hd e (List.mem_append_right _ he)]; omega)
    hnz
  have hrem := remove_hull (b.put (f, t)) t pre [] post (f, t) (f, t) []
    (by rw [hfr]; simp) rfl
    (fun e he => (hothers e (List.mem_append_left _ he)).1)
    (fun e he => (hothers e (List.mem_append_right _ he)).1)
    (le_refl t) (le_refl t)
  have hfil : [(f, t)].filter (fun e : F × Int => decide (e.2 ≤ t)) = [(f, t)] := by simp
  rw [get_of_find (b.put (f, t)) t f t t hne hfind, if_neg (by omega), hrem, hfil]
  exact ⟨_, rfl, rfl⟩

/-- C7, the code at the failing input: on a fresh buffer `put (7, 5)` followed by the query
`5` returns `[7]` with `[5]` and empties the buffer, as the claim says; `put (7, 0)`
followed by the query `0` leaves the entry as the only one stored, the scan sets
`best_match_ts` to its timestamp `0`, the value it starts from, the assertion
`best_match_ts != 0` fails and the call aborts instead of returning the entry. -/
theorem C7_roundtrip_at_zero_aborts :
    ((TimeAlignedBuffer.create (0 : Nat) 0).put (7, 5)).get_best_match_and_older 5 =
        some (TimeAlignedBuffer.mk 0 10 7 0 [], [7], [5]) ∧
      ((TimeAlignedBuffer.create (0 : Nat) 0).put (7, 0)).timestamped_frames = [(7, 0)] ∧
      ((TimeAlignedBuffer.create (0 : Nat) 0).put (7, 0)).get_best_match_and_older 0
        = none := by
  decide

/-! ## The ring order of the slots -/

theorem ring_order_of_le {F : Type} (b : TimeAlignedBuffer F)
    (h : b.timestamped_frames.length ≤ b.index) : b.ring_order = b.timestamped_frames := by
  unfold TimeAlignedBuffer.ring_order
  rw [List.drop_eq_nil_of_le h, List.take_of_length_le h, List.nil_append]

theorem ring_order_of_split {F : Type} (b : TimeAlignedBuffer F) (A B : List (F × Int))
    (hfr : b.timestamped_frames = A ++ B) (hidx : b.index = A.length) :
    b.ring_order = B ++ A := by
  unfold TimeAlignedBuffer.ring_order
  rw [hfr, hidx, List.drop_left, List.take_left]

theorem ring_order_of_zero {F : Type} (b : TimeAlignedBuffer F) (h : b.index = 0) :
    b.ring_order = b.timestamped_frames := by
  unfold TimeAlignedBuffer.ring_order
  rw [h, List.drop_zero, List.take_zero, List.append_nil]

/-- The slots split at the write index. -/
theorem split_at_index {F : Type} (b : TimeAlignedBuffer F)
    (h : b.index < b.timestamped_frames.length) :
    ∃ A c B, b.timestamped_frames = A ++ c :: B ∧ A.length = b.index := by
  refine ⟨b.timestamped_frames.take b.index, b.timestamped_frames[b.index],
    b.timestamped_frames.drop (b.index + 1), ?_, ?_⟩
  · rw [← List.drop_eq_getElem_cons h, List.take_append_drop]
  · rw [List.length_take]; omega

/-- A `put` of an entry newer than every stored entry keeps the ring order strictly
increasing, the write index below the capacity and the size within the capacity. -/
theorem put_preserves_ring {F : Type} (b : TimeAlignedBuffer F) (e : F × Int)
    (hs : b.ring_order.Pairwise (fun e1 e2 => e1.2 < e2.2))
    (hnew : ∀ x ∈ b.timestamped_frames, x.2 < e.2)
    (hidx : b.index < b.n_timestamped_frames)
    (hsize : b.timestamped_frames.length ≤ b.n_timestamped_frames) :
    (b.put e).ring_order.Pairwise (fun e1 e2 => e1.2 < e2.2) ∧
      (b.put e).index < (b.put e).n_timestamped_frames ∧
      (b.put e).timestamped_frames.length ≤ (b.put e).n_timestamped_frames ∧
      (∀ x ∈ (b.put e).timestamped_frames, x.2 ≤ e.2) := by
  have hn : (b.put e).n_timestamped_frames = b.n_timestamped_frames := rfl
  have hindex : (b.put e).index
      = if b.index + 1 ≥ b.n_timestamped_frames then 0 else b.index + 1 := rfl
  have hindex_lt : (b.put e).index < b.n_timestamped_frames := by
    rw [hindex]; split <;> omega
  by_cases hge : b.timestamped_frames.length ≤ b.index
  · have hfr : (b.put e).timestamped_frames = b.timestamped_frames ++ [e] := by
      unfold TimeAlignedBuffer.put
      simp only [ge_iff_le, hge, if_true]
    have hring : b.ring_order = b.timestamped_frames := ring_order_of_le b hge
    rw [hring] at hs
    have hring' : (b.put e).ring_order = b.timestamped_frames ++ [e] := by
      by_cases hw : b.index + 1 ≥ b.n_timestamped_frames
      · rw [ring_order_of_zero _ (by rw [hindex, if_pos hw]), hfr]
      · rw [ring_order_of_le _ (by
          rw [hindex, if_neg hw, hfr, List.length_append, List.length_singleton]; omega), hfr]
    refine ⟨?_, by rw [hn]; exact hindex_lt, ?_, ?_⟩
    · rw [hring', List.pairwise_append]
      refine ⟨hs, List.pairwise_singleton _ _, ?_⟩
      intro x hx y hy
      rw [List.mem_singleton] at hy
      rw [hy]; exact hnew x hx
    · rw [hn, hfr, List.length_append, List.length_singleton]; omega
    · intro x hx
      rw [hfr] at hx
      rcases List.mem_append.1 hx with h | h
      · exact le_of_lt (hnew x h)
      · rw [List.mem_singleton] at h; rw [h]
  · have hlt : b.index < b.timestamped_frames.length := by omega
    obtain ⟨A, c, B, hAB, hA⟩ := split_at_index b hlt
    have hfr : (b.put e).timestamped_frames = A ++ e :: B := by
      unfold TimeAlignedBuffer.put
      simp only [ge_iff_le, hge, if_false]
      rw [hAB, ← hA, List.set_append_right _ _ (le_refl _), Nat.sub_self, List.set_cons_zero]
    have hring : b.ring_order = (c :: B) ++ A := ring_order_of_split b A (c :: B) hAB hA.symm
    rw [hring, List.pairwise_append] at hs
    obtain ⟨hcB, hApw, hcross⟩ := hs
    rw [List.pairwise_cons] at hcB
    have hmemA : ∀ x ∈ A, x ∈ b.timestamped_frames := by
      intro x hx; rw [hAB]; exact List.mem_append_left _ hx
    have hmemB : ∀ x ∈ B, x ∈ b.timestamped_frames := by
      intro x hx; rw [hAB]
      exact List.mem_append_right _ (List.mem_cons_of_mem _ hx)
    have hlen : b.timestamped_frames.length = A.length + (B.length + 1) := by
      rw [hAB, List.length_append, List.length_cons]
    have hring' : (b.put e).ring_order = B ++ (A ++ [e]) := by
      by_cases hw : b.index + 1 ≥ b.n_timestamped_frames
      · have hB : B = [] := by
          apply List.eq_nil_of_length_eq_zero
          omega
        rw [ring_order_of_zero _ (by rw [hindex, if_pos hw]), hfr, hB, List.nil_append]
      · have hfr' : (b.put e).timestamped_frames = (A ++ [e]) ++ B := by
          rw [hfr, List.append_assoc]; rfl
        exact ring_order_of_split _ (A ++ [e]) B hfr' (by
          rw [hindex, if_neg hw, List.length_append, List.length_singleton, hA])
    refine ⟨?_, by rw [hn]; exact hindex_lt, ?_, ?_⟩
    · rw [hring', List.pairwise_append]
      refine ⟨hcB.2, ?_, ?_⟩
      · rw [List.pairwise_append]
        refine ⟨hApw, List.pairwise_singleton _ _, ?_⟩
        intro x hx y hy
        rw [List.mem_singleton] at hy
        rw [hy]; exact hnew x (hmemA x hx)
      · intro x hx y hy
        rcases List.mem_append.1 hy with h | h
        · exact hcross x (List.mem_cons_of_mem _ hx) y h
        · rw [List.mem_singleton] at h
          rw [h]; exact hnew x (hmemB x hx)
    · rw [hn, hfr, List.length_append, List.length_cons]; omega
    · intro x hx
      rw [hfr] at hx
      rcases List.mem_append.1 hx with h | h
      · exact le_of_lt (hnew x (hmemA x h))
      · rcases List.mem_cons.1 h with h | h
        · rw [h]
        · exact le_of_lt (hnew x (hmemB x h))

theorem remove_none_of_no_match {F : Type} (b : TimeAlignedBuffer F) (x : Int)
    (h : ∀ e ∈ b.timestamped_frames, x < e.2) : b.remove_best_match_and_older x = none := by
  unfold TimeAlignedBuffer.remove_best_match_and_older
  simp only [collect_none x b.timestamped_frames 0 h, List.head?_nil]

theorem exists_cons_and_concat {α : Type} (l : List α) (h : l ≠ []) :
    ∃ a M' M'' z, l = a :: M' ∧ a :: M' = M'' ++ [z] := by
  obtain ⟨a, M', hcons⟩ := List.exists_cons_of_ne_nil h
  rcases List.eq_nil_or_concat l with h' | ⟨L, c, h'⟩
  · exact absurd h' h
  · exact ⟨a, M', L, c, hcons, by rw [← hcons, h']; simp⟩

/-- The removal keeps the ring order strictly increasing: what remains is a part of the old
ring order, read from the adjusted write index. -/
theorem remove_preserves_ring {F : Type} (b : TimeAlignedBuffer F) (x : Int)
    (r : TimeAlignedBuffer F × List F × List Int)
    (hs : b.ring_order.Pairwise (fun e1 e2 => e1.2 < e2.2))
    (hrem : b.remove_best_match_and_older x = some r) :
    r.1.ring_order.Pairwise (fun e1 e2 => e1.2 < e2.2) ∧
      r.1.index ≤ b.index ∧
      r.1.n_timestamped_frames = b.n_timestamped_frames ∧
      r.1.timestamped_frames.length ≤ b.timestamped_frames.length ∧
      (∀ e ∈ r.1.timestamped_frames, e ∈ b.timestamped_frames) := by
  have hfrAB : b.timestamped_frames
      = b.timestamped_frames.take b.index ++ b.timestamped_frames.drop b.index :=
    (List.take_append_drop _ _).symm
  have hs' := hs
  unfold TimeAlignedBuffer.ring_order at hs'
  rw [List.pairwise_append] at hs'
  obtain ⟨hB, hA, hcross⟩ := hs'
  have hle : ∀ l : List (F × Int), l.Pairwise (fun e1 e2 => e1.2 < e2.2) →
      l.Pairwise (fun e1 e2 => e1.2 ≤ e2.2) :=
    fun l hl => hl.imp (fun h => le_of_lt h)
  obtain ⟨A1, A2, hAsplit, hA1, hA2⟩ := sorted_split _ x (hle _ hA)
  obtain ⟨B1, B2, hBsplit, hB1, hB2⟩ := sorted_split _ x (hle _ hB)
  have hAlen : (b.timestamped_frames.take b.index).length ≤ b.index := by
    rw [List.length_take]; omega
  by_cases hA1nil : A1 = []
  · -- every match lies at or after the write index
    rw [hA1nil, List.nil_append] at hAsplit
    by_cases hB1nil : B1 = []
    · rw [hB1nil, List.nil_append] at hBsplit
      have hnone := remove_none_of_no_match b x (by
        intro e he
        rw [hfrAB] at he
        rcases List.mem_append.1 he with h | h
        · rw [hAsplit] at h; exact hA2 e h
        · rw [hBsplit] at h; exact hB2 e h)
      rw [hnone] at hrem
      exact Option.noConfusion hrem
    · obtain ⟨a, M', M'', z, hcons, hconcat⟩ := exists_cons_and_concat B1 hB1nil
      have hBne : b.timestamped_frames.drop b.index ≠ [] := by
        rw [hBsplit, hcons]; simp
      have hidx_lt : b.index < b.timestamped_frames.length := by
        by_contra hcon
        exact hBne (List.drop_eq_nil_of_le (by omega))
      have hA2len : A2.length = b.index := by
        rw [← hAsplit, List.length_take]; omega
      have hfr : b.timestamped_frames = A2 ++ (a :: M') ++ B2 := by
        rw [← hcons, List.append_assoc, ← hBsplit, ← hAsplit]; exact hfrAB
      have hhull := remove_hull b x A2 M' B2 a z M'' hfr hconcat hA2 hB2
        (hB1 a (by rw [hcons]; simp))
        (hB1 z (by rw [hcons, hconcat]; simp))
      rw [collect_amount_zero x (a :: M') A2.length b.index (by omega), Nat.sub_zero,
        hrem] at hhull
      have hr := Option.some.inj hhull
      rw [hr]
      refine ⟨?_, le_refl _, rfl, ?_, ?_⟩
      · rw [ring_order_of_split (TimeAlignedBuffer.mk b.index b.n_timestamped_frames z.1
          b.default_timestamp (A2 ++ B2)) A2 B2 rfl hA2len.symm, List.pairwise_append]
        rw [hBsplit, List.pairwise_append] at hB
        rw [hAsplit] at hA
        refine ⟨hB.2.1, hA, ?_⟩
        intro u hu v hv
        exact hcross u (by rw [hBsplit]; exact List.mem_append_right _ hu) v
          (by rw [hAsplit]; exact hv)
      · simp only [hfr, List.length_append, List.length_cons]; omega
      · intro e he
        simp only at he
        rw [hfr]
        rcases List.mem_append.1 he with h | h
        · exact List.mem_append_left _ (List.mem_append_left _ h)
        · exact List.mem_append_right _ h
  · -- some match lies before the write index: every slot from the index on matches too
    obtain ⟨a, A1', hA1cons⟩ := List.exists_cons_of_ne_nil hA1nil
    have ha : a.2 ≤ x := hA1 a (by rw [hA1cons]; simp)
    have haA : a ∈ b.timestamped_frames.take b.index := by
      rw [hAsplit, hA1cons]; simp
    have hB2nil : B2 = [] := by
      by_contra hne
      obtain ⟨c, B2', hc⟩ := List.exists_cons_of_ne_nil hne
      have h1 := hB2 c (by rw [hc]; simp)
      have h2 := hcross c (by rw [hBsplit, hc]; simp) a haA
      omega
    rw [hB2nil, List.append_nil] at hBsplit
    by_cases hB1nil : B1 = []
    · rw [hB1nil] at hBsplit
      obtain ⟨a', M', M'', z, hcons, hconcat⟩ := exists_cons_and_concat A1 hA1nil
      have hfr : b.timestamped_frames = [] ++ (a' :: M') ++ A2 := by
        rw [List.nil_append, ← hcons, ← hAsplit]
        have := hfrAB
        rw [hBsplit, List.append_nil] at this
        exact this
      have hhull := remove_hull b x [] M' A2 a' z M'' hfr hconcat (by simp) hA2
        (hA1 a' (by rw [hcons]; simp))
        (hA1 z (by rw [hcons, hconcat]; simp))
      have hlenA : (a' :: M').length + A2.length ≤ b.index := by
        rw [← hcons, ← List.length_append]
        rw [hAsplit] at hAlen
        exact hAlen
      rw [List.length_nil, collect_amount_all x (a' :: M') 0 b.index
        (fun e he => hA1 e (by rw [hcons]; exact he)) (by omega), hrem] at hhull
      have hr := Option.some.inj hhull
      rw [hr]
      refine ⟨?_, Nat.sub_le _ _, rfl, ?_, ?_⟩
      · rw [ring_order_of_le (TimeAlignedBuffer.mk (b.index - (a' :: M').length)
          b.n_timestamped_frames z.1 b.default_timestamp ([] ++ A2)) (by
          simp only [List.nil_append]
          omega)]
        simp only [List.nil_append]
        rw [hAsplit, List.pairwise_append] at hA
        exact hA.2.1
      · simp only [hfr, List.length_append, List.length_cons, List.nil_append]
        omega
      · intro e he
        simp only [List.nil_append] at he
        rw [hfr]
        exact List.mem_append_right _ he
    · obtain ⟨M'', z, hB1concat⟩ : ∃ M'' z, B1 = M'' ++ [z] := by
        rcases List.eq_nil_or_concat B1 with h | ⟨L, c, h⟩
        · exact absurd h hB1nil
        · exact ⟨L, c, by simpa using h⟩
      have hfr : b.timestamped_frames = [] ++ (a :: (A1' ++ A2 ++ M'' ++ [z])) ++ [] := by
        rw [List.nil_append, List.append_nil]
        have := hfrAB
        rw [hBsplit, hAsplit, hA1cons, hB1concat] at this
        rw [this]
        simp
      have hhull := remove_hull b x [] (A1' ++ A2 ++ M'' ++ [z]) [] a z (a :: (A1' ++ A2 ++ M''))
        hfr (by simp) (by simp) (by simp) ha
        (hB1 z (by rw [hB1concat]; simp))
      rw [hrem] at hhull
      have hr := Option.some.inj hhull
      rw [hr]
      refine ⟨?_, Nat.sub_le _ _, rfl, ?_, ?_⟩
      · unfold TimeAlignedBuffer.ring_order
        simp
      · simp
      · intro e he
        simp at he

/-- A `get_best_match_and_older` call keeps the ring order strictly increasing, the write
index below the capacity and the size within the capacity, as long as the doubling of the
capacity does not overflow. -/
theorem get_preserves_ring {F : Type} [Inhabited F] (b : TimeAlignedBuffer F) (q : Int)
    (r : TimeAlignedBuffer F × List F × List Int)
    (hs : b.ring_order.Pairwise (fun e1 e2 => e1.2 < e2.2))
    (hidx : b.index < b.n_timestamped_frames)
    (hsize : b.timestamped_frames.length ≤ b.n_timestamped_frames)
    (hget : b.get_best_match_and_older q = some r)
    (hguard : r.1.n_timestamped_frames = b.n_timestamped_frames ∨
      b.n_timestamped_frames * 2 < SIZE_MODULUS) :
    r.1.ring_order.Pairwise (fun e1 e2 => e1.2 < e2.2) ∧
      r.1.index < r.1.n_timestamped_frames ∧
      r.1.timestamped_frames.length ≤ r.1.n_timestamped_frames ∧
      (∀ e ∈ r.1.timestamped_frames, e ∈ b.timestamped_frames) := by
  by_cases hlen : b.timestamped_frames.length = 0
  · unfold TimeAlignedBuffer.get_best_match_and_older at hget
    rw [if_pos hlen] at hget
    have hr := Option.some.inj hget
    rw [← hr]
    exact ⟨hs, hidx, hsize, fun e he => he⟩
  · have hne : b.timestamped_frames ≠ [] := by
      intro h; rw [h] at hlen; exact hlen rfl
    cases hfind : b.find_oldest_and_best_matching q with
    | none =>
      unfold TimeAlignedBuffer.get_best_match_and_older at hget
      rw [if_neg hlen, hfind] at hget
      exact Option.noConfusion hget
    | some res =>
      obtain ⟨o_frame, o_ts, m_ts⟩ := res
      rw [get_of_find b q o_frame o_ts m_ts hne hfind] at hget
      by_cases hold : o_ts > q
      · rw [if_pos hold] at hget
        by_cases hbest : m_ts = o_ts
        · rw [if_pos hbest] at hget
          have hr := Option.some.inj hget
          rw [← hr] at hguard ⊢
          simp only at hguard
          refine ⟨hs, ?_, ?_, fun e he => he⟩
          · simp only
            rcases hguard with h | h
            · rw [h]; exact hidx
            · rw [Nat.mod_eq_of_lt h]; omega
          · simp only
            rcases hguard with h | h
            · rw [h]; exact hsize
            · rw [Nat.mod_eq_of_lt h]; omega
        · rw [if_neg hbest] at hget
          exact Option.noConfusion hget
      · rw [if_neg hold] at hget
        obtain ⟨h1, h2, h3, h4, h5⟩ := remove_preserves_ring b m_ts r hs hget
        exact ⟨h1, by omega, by omega, h5⟩

/-- The invariant of the states reached with strictly increasing `put` timestamps: the ring
order is strictly increasing, the write index is below the capacity, the size is within the
capacity, and no stored timestamp exceeds that of the latest `put`. -/
theorem reachable_increasing_invariant {F : Type} [Inhabited F] (last : Option Int)
    (b : TimeAlignedBuffer F) (h : ReachableIncreasing last b) :
    b.ring_order.Pairwise (fun e1 e2 => e1.2 < e2.2) ∧
      b.index < b.n_timestamped_frames ∧
      b.timestamped_frames.length ≤ b.n_timestamped_frames ∧
      (∀ e ∈ b.timestamped_frames, ∃ t, last = some t ∧ e.2 ≤ t) := by
  induction h with
  | create d t =>
    refine ⟨?_, ?_, ?_, ?_⟩
    · simp [TimeAlignedBuffer.ring_order, TimeAlignedBuffer.create]
    · simp [TimeAlignedBuffer.create]
    · simp [TimeAlignedBuffer.create]
    · intro e he
      simp [TimeAlignedBuffer.create] at he
  | @put last' b' e _ hnew ih =>
    obtain ⟨h1, h2, h3, h4⟩ := ih
    have hlt : ∀ x ∈ b'.timestamped_frames, x.2 < e.2 := by
      intro x hx
      obtain ⟨t, ht, hle⟩ := h4 x hx
      have := hnew t ht
      omega
    obtain ⟨g1, g2, g3, g4⟩ := put_preserves_ring _ e h1 hlt h2 h3
    exact ⟨g1, g2, g3, fun x hx => ⟨e.2, rfl, g4 x hx⟩⟩
  | get q fs ts _ hget hguard ih =>
    obtain ⟨h1, h2, h3, h4⟩ := ih
    obtain ⟨g1, g2, g3, g4⟩ := get_preserves_ring _ q _ h1 h2 h3 hget hguard
    exact ⟨g1, g2, g3, fun x hx => h4 x (g4 x hx)⟩

/-- Dropping the side conditions of `ReachableIncreasing`. -/
theorem reachable_of_increasing {F : Type} [Inhabited F] (last : Option Int)
    (b : TimeAlignedBuffer F) (h : ReachableIncreasing last b) : Reachable b := by
  induction h with
  | create d t => exact Reachable.create d t
  | put e _ _ ih => exact Reachable.put e ih
  | get q fs ts _ hget _ ih => exact Reachable.get q fs ts ih hget

/-- In a list with strictly increasing timestamps the entries `≤ x` are a leading block. -/
theorem filter_le_eq_take {F : Type} (l : List (F × Int)) (x : Int)
    (h : l.Pairwise (fun e1 e2 => e1.2 < e2.2)) :
    ∃ k, l.filter (fun e => decide (e.2 ≤ x)) = l.take k := by
  obtain ⟨A1, A2, hsplit, hA1, hA2⟩ := sorted_split l x (h.imp (fun h' => le_of_lt h'))
  refine ⟨A1.length, ?_⟩
  rw [hsplit, filter_le_of_split A1 A2 x hA1 hA2, List.take_left]

/-- Ten puts with the timestamps `1 .. 10` on a fresh buffer fill the ten slots in order and
wrap the write index to `0`. -/
theorem reachable_ten_puts :
    ReachableIncreasing (some 10)
      (TimeAlignedBuffer.mk 0 10 (0 : Nat) 0 [(1, 1), (2, 2), (3, 3), (4, 4), (5, 5), (6, 6), (7, 7), (8, 8), (9, 9), (10, 10)]) := by
  have h0 : ReachableIncreasing none (TimeAlignedBuffer.mk 0 10 (0 : Nat) 0 []) :=
    ReachableIncreasing.create 0 0
  have h1 : ReachableIncreasing (some 1)
      (TimeAlignedBuffer.mk 1 10 (0 : Nat) 0 [(1, 1)]) :=
    ReachableIncreasing.put (1, 1) h0 (by intro t h; cases h)
  have h2 : ReachableIncreasing (some 2)
      (TimeAlignedBuffer.mk 2 10 (0 : Nat) 0 [(1, 1), (2, 2)]) :=
    ReachableIncreasing.put (2, 2) h1 (by intro t h; cases h; decide)
  have h3 : ReachableIncreasing (some 3)
      (TimeAlignedBuffer.mk 3 10 (0 : Nat) 0 [(1, 1), (2, 2), (3, 3)]) :=
    ReachableIncreasing.put (3, 3) h2 (by intro t h; cases h; decide)
  have h4 : ReachableIncreasing (some 4)
      (TimeAlignedBuffer.mk 4 10 (0 : Nat) 0 [(1, 1), (2, 2), (3, 3), (4, 4)]) :=
    ReachableIncreasing.put (4, 4) h3 (by intro t h; cases h; decide)
  have h5 : ReachableIncreasing (some 5)
      (TimeAlignedBuffer.mk 5 10 (0 : Nat) 0 [(1, 1), (2, 2), (3, 3), (4, 4), (5, 5)]) :=
    ReachableIncreasing.put (5, 5) h4 (by intro t h; cases h; decide)
  have h6 : ReachableIncreasing (some 6)
      (TimeAlignedBuffer.mk 6 10 (0 : Nat) 0 [(1, 1), (2, 2), (3, 3), (4, 4), (5, 5), (6, 6)]) :=
    ReachableIncreasing.put (6, 6) h5 (by intro t h; cases h; decide)
  have h7 : ReachableIncreasing (some 7)
      (TimeAlignedBuffer.mk 7 10 (0 : Nat) 0 [(1, 1), (2, 2), (3, 3), (4, 4), (5, 5), (6, 6), (7, 7)]) :=
    ReachableIncreasing.put (7, 7) h6 (by intro t h; cases h; decide)
  have h8 : ReachableIncreasing (some 8)
      (TimeAlignedBuffer.mk 8 10 (0 : Nat) 0 [(1, 1), (2, 2), (3, 3), (4, 4), (5, 5), (6, 6), (7, 7), (8, 8)]) :=
    ReachableIncreasing.put (8, 8) h7 (by intro t h; cases h; decide)
  have h9 : ReachableIncreasing (some 9)
      (TimeAlignedBuffer.mk 9 10 (0 : Nat) 0 [(1, 1), (2, 2), (3, 3), (4, 4), (5, 5), (6, 6), (7, 7), (8, 8), (9, 9)]) :=
    ReachableIncreasing.put (9, 9) h8 (by intro t h; cases h; decide)
  have h10 : ReachableIncreasing (some 10)
      (TimeAlignedBuffer.mk 0 10 (0 : Nat) 0 [(1, 1), (2, 2), (3, 3), (4, 4), (5, 5), (6, 6), (7, 7), (8, 8), (9, 9), (10, 10)]) :=
    ReachableIncreasing.put (10, 10) h9 (by intro t h; cases h; decide)
  exact h10

/-- The eleventh put overwrites slot `0`. -/
theorem reachable_eleven_puts :
    ReachableIncreasing (some 11)
      (TimeAlignedBuffer.mk 1 10 (0 : Nat) 0
        [(11, 11), (2, 2), (3, 3), (4, 4), (5, 5), (6, 6), (7, 7), (8, 8), (9, 9), (10, 10)]) :=
  ReachableIncreasing.put (11, 11) reachable_ten_puts (by intro t h; cases h; decide)

/-- Ten puts followed by the query `5`: slots `1 .. 5` are drained, five slots remain and the
write index is still `0`. -/
theorem reachable_ten_puts_drained :
    Reachable (TimeAlignedBuffer.mk 0 10 (5 : Nat) 0
      [(6, 6), (7, 7), (8, 8), (9, 9), (10, 10)]) :=
  Reachable.get 5 [1, 2, 3, 4, 5] [1, 2, 3, 4, 5]
    (reachable_of_increasing _ _ reachable_ten_puts) (by decide)

/-! ## Claims about the reachable states and `put` -/

/-- C2 (amended): in every state reached from a fresh buffer by `put` calls with strictly
increasing timestamps and `get_best_match_and_older` calls (no capacity doubling
overflowing), the stored timestamps are strictly increasing when the slots are read
cyclically from the write index, so the entries with timestamp `≤ x` form a leading block of
that ring order for every `x`; the timestamps are non-decreasing in storage order whenever
the write index is `0` or not below `size()`. -/
theorem C2_ring_order_strictly_increasing {F : Type} [Inhabited F] (last : Option Int)
    (b : TimeAlignedBuffer F) (h : ReachableIncreasing last b) :
    b.ring_order.Pairwise (fun e1 e2 => e1.2 < e2.2) ∧
      (∀ x : Int, ∃ k, b.ring_order.filter (fun e => decide (e.2 ≤ x)) = b.ring_order.take k) ∧
      ((b.index = 0 ∨ b.size ≤ b.index) →
        b.timestamped_frames.Pairwise (fun e1 e2 => e1.2 ≤ e2.2)) := by
  have hinv := (reachable_increasing_invariant last b h).1
  refine ⟨hinv, fun x => filter_le_eq_take _ x hinv, ?_⟩
  intro hcase
  have hring : b.ring_order = b.timestamped_frames := by
    rcases hcase with h0 | hge
    · exact ring_order_of_zero b h0
    · exact ring_order_of_le b hge
  rw [hring] at hinv
  exact hinv.imp (fun h' => le_of_lt h')

/-- Witness of C2: after eleven puts the slots hold `[11, 2, 3, .., 10]` with write index `1`;
read from slot `1` on they are `2, 3, .., 10, 11`. -/
theorem C2_ring_order_strictly_increasing_witness :
    (TimeAlignedBuffer.mk 1 10 (0 : Nat) 0
        [(11, 11), (2, 2), (3, 3), (4, 4), (5, 5), (6, 6), (7, 7), (8, 8), (9, 9),
          (10, 10)]).ring_order
      = [(2, 2), (3, 3), (4, 4), (5, 5), (6, 6), (7, 7), (8, 8), (9, 9), (10, 10), (11, 11)] ∧
    (TimeAlignedBuffer.mk 1 10 (0 : Nat) 0
        [(11, 11), (2, 2), (3, 3), (4, 4), (5, 5), (6, 6), (7, 7), (8, 8), (9, 9),
          (10, 10)]).ring_order.Pairwise (fun e1 e2 => e1.2 < e2.2) :=
  ⟨by decide, (C2_ring_order_strictly_increasing _ _ reachable_eleven_puts).1⟩

/-- C2 as stated fails: eleven puts with the timestamps `1 .. 11` on a fresh buffer leave the
slots `[11, 2, 3, .., 10]`, which are not non-decreasing in storage order. -/
theorem C2_counterexample :
    ¬ ∀ (last : Option Int) (b : TimeAlignedBuffer Nat), ReachableIncreasing last b →
        b.timestamped_frames.Pairwise (fun e1 e2 => e1.2 ≤ e2.2) := by
  intro h
  have := h _ _ reachable_eleven_puts
  revert this
  decide

/-- C8, the code at the failing input: ten puts with the timestamps `1 .. 10` on a fresh
buffer wrap the write index to `0`; the query `5` returns the entries `1 .. 5` and leaves
the five slots `[6, .., 10]`, fewer than `n = 10`, with the write index still `0`; the next
put does not append but overwrites slot `0`, the entry with timestamp `6` that was never
returned, and `size()` stays `5`. -/
theorem C8_put_overwrites_undelivered_entry :
    (TimeAlignedBuffer.mk 0 10 (0 : Nat) 0
        [(1, 1), (2, 2), (3, 3), (4, 4), (5, 5), (6, 6), (7, 7), (8, 8), (9, 9),
          (10, 10)]).get_best_match_and_older 5 =
        some (TimeAlignedBuffer.mk 0 10 5 0 [(6, 6), (7, 7), (8, 8), (9, 9), (10, 10)],
          [1, 2, 3, 4, 5], [1, 2, 3, 4, 5]) ∧
      Reachable (TimeAlignedBuffer.mk 0 10 (5 : Nat) 0
        [(6, 6), (7, 7), (8, 8), (9, 9), (10, 10)]) ∧
      (TimeAlignedBuffer.mk 0 10 (5 : Nat) 0
        [(6, 6), (7, 7), (8, 8), (9, 9), (10, 10)]).size < 10 ∧
      ((TimeAlignedBuffer.mk 0 10 (5 : Nat) 0
        [(6, 6), (7, 7), (8, 8), (9, 9), (10, 10)]).put (11, 11)) =
        TimeAlignedBuffer.mk 1 10 5 0 [(11, 11), (7, 7), (8, 8), (9, 9), (10, 10)] :=
  ⟨by decide, reachable_ten_puts_drained, by decide, by decide⟩

/-- C3, the code at the failing input: on a fresh buffer with default pair `(0, 0)`, after
`put (7, 5)` the query `5` drains the entry `(7, 5)` and empties the buffer; the
stored default frame becomes `7` but the stored default timestamp stays `0`, so the next
query returns the frame `7` with the timestamp `0`, not `5`. -/
theorem C3_default_timestamp_stays :
    ((TimeAlignedBuffer.create (0 : Nat) 0).put (7, 5)).get_best_match_and_older 5 =
        some (TimeAlignedBuffer.mk 0 10 7 0 [], [7], [5]) ∧
    (TimeAlignedBuffer.mk 0 10 (7 : Nat) 0 []).get_best_match_and_older 9 =
        some (TimeAlignedBuffer.mk 0 10 7 0 [], [7], [0]) := by
  decide

/-! ## The assertions of the scan and of the removal -/

/-- C13, the code at the failing input: on a fresh buffer, after `put (7, 0)` the buffer is
not empty and the query `0` finds the entry as best match, so `best_match_ts` is `0`, the
value the scan starts from; the assertion `best_match_ts != 0` fails and the call aborts. -/
theorem C13_zero_timestamp_fails_assertion :
    ((TimeAlignedBuffer.create (0 : Nat) 0).put (7, 0)).size = 1 ∧
      (scan_frames 0 ((TimeAlignedBuffer.create (0 : Nat) 0).put (7, 0)).timestamped_frames
        ).best_match_ts = 0 ∧
      ((TimeAlignedBuffer.create (0 : Nat) 0).put (7, 0)).find_oldest_and_best_matching 0
        = none ∧
      ((TimeAlignedBuffer.create (0 : Nat) 0).put (7, 0)).get_best_match_and_older 0
        = none := by
  decide

/-- C16, the code at the failing input: with the stored timestamps `1` and `LLONG_MAX` and the
query `-1`, strictly smaller than both, the difference `LLONG_MAX - (-1)` wraps to
`LLONG_MIN` in signed 64-bit arithmetic and wins the comparison: the scan passes its own
assertions with `oldest_ts = 1` and `best_match_ts = LLONG_MAX`, and the assertion
`best_match_ts == oldest_ts` of the capacity-doubling branch fails. -/
theorem C16_wrapped_difference_fails_assertion :
    timedelta LLONG_MAX (-1) = LLONG_MIN ∧
      (((TimeAlignedBuffer.create (0 : Nat) 0).put (7, 1)).put
        (8, LLONG_MAX)).find_oldest_and_best_matching (-1) = some (7, 1, LLONG_MAX) ∧
      (((TimeAlignedBuffer.create (0 : Nat) 0).put (7, 1)).put
        (8, LLONG_MAX)).get_best_match_and_older (-1) = none := by
  decide

theorem collect_bounds {F : Type} (x : Int) (l : List (F × Int)) (i : Nat) :
    ∀ m ∈ collect_best_and_older x i l, i ≤ m.1 ∧ m.1 < i + l.length := by
  induction l generalizing i with
  | nil => intro m hm; simp [collect_best_and_older] at hm
  | cons e l ih =>
    intro m hm
    simp only [collect_best_and_older] at hm
    simp only [List.length_cons]
    split at hm
    · rcases List.mem_cons.1 hm with h | h
      · rw [h]; simp only; omega
      · have := ih (i + 1) m h; omega
    · have := ih (i + 1) m hm; omega

theorem collect_ne_nil {F : Type} (x : Int) (l : List (F × Int)) (i : Nat)
    (h : ∃ e ∈ l, e.2 ≤ x) : collect_best_and_older x i l ≠ [] := by
  induction l generalizing i with
  | nil => obtain ⟨e, he, _⟩ := h; simp at he
  | cons a l ih =>
    simp only [collect_best_and_older]
    by_cases ha : a.2 ≤ x
    · rw [if_pos ha]; simp
    · rw [if_neg ha]
      apply ih
      obtain ⟨e, he, hle⟩ := h
      rcases List.mem_cons.1 he with h' | h'
      · rw [h'] at hle; exact absurd hle ha
      · exact ⟨e, h', hle⟩

/-- The first collected index is the smallest one. -/
theorem collect_head_le {F : Type} (x : Int) (l : List (F × Int)) (i : Nat)
    (first : Nat × F × Int) (h : (collect_best_and_older x i l).head? = some first) :
    ∀ m ∈ collect_best_and_older x i l, first.1 ≤ m.1 := by
  induction l generalizing i with
  | nil => simp [collect_best_and_older] at h
  | cons e l ih =>
    simp only [collect_best_and_older] at h ⊢
    by_cases he : e.2 ≤ x
    · rw [if_pos he] at h ⊢
      simp only [List.head?_cons, Option.some.injEq] at h
      intro m hm
      rcases List.mem_cons.1 hm with h' | h'
      · rw [h', ← h]
      · have := (collect_bounds x l (i + 1) m h').1
        rw [← h]; simp only; omega
    · rw [if_neg he] at h ⊢
      exact ih (i + 1) h

/-- When `remove_best_match_and_older` returns, its result is made of the first and the last
collected match as in the source. -/
theorem remove_eq_some {F : Type} (b : TimeAlignedBuffer F) (x : Int)
    (r : TimeAlignedBuffer F × List F × List Int)
    (h : b.remove_best_match_and_older x = some r) :
    ∃ first last,
      (collect_best_and_older x 0 b.timestamped_frames).head? = some first ∧
      (collect_best_and_older x 0 b.timestamped_frames).getLast? = some last ∧
      r.1 = { b with
              default_value := last.2.1
              timestamped_frames :=
                b.timestamped_frames.take first.1 ++ b.timestamped_frames.drop (last.1 + 1)
              index := b.index -
                ((collect_best_and_older x 0 b.timestamped_frames).filter
                  (fun m => decide (m.1 < b.index))).length } := by
  unfold TimeAlignedBuffer.remove_best_match_and_older at h
  simp only at h
  cases hh : (collect_best_and_older x 0 b.timestamped_frames).head? with
  | none => rw [hh] at h; exact Option.noConfusion h
  | some first =>
    cases hl : (collect_best_and_older x 0 b.timestamped_frames).getLast? with
    | none => rw [hh, hl] at h; exact Option.noConfusion h
    | some last =>
      rw [hh, hl] at h
      simp only at h
      split at h
      · have hr := Option.some.inj h
        exact ⟨first, last, rfl, rfl, by rw [← hr]⟩
      · exact Option.noConfusion h

/-- The removal never raises the write index or the size and keeps the capacity. -/
theorem remove_bounds {F : Type} (b : TimeAlignedBuffer F) (x : Int)
    (r : TimeAlignedBuffer F × List F × List Int)
    (h : b.remove_best_match_and_older x = some r) :
    r.1.index ≤ b.index ∧ r.1.n_timestamped_frames = b.n_timestamped_frames ∧
      r.1.timestamped_frames.length ≤ b.timestamped_frames.length := by
  obtain ⟨first, last, hh, hl, hr⟩ := remove_eq_some b x r h
  have hle := collect_head_le x b.timestamped_frames 0 first hh last
    (List.mem_of_getLast?_eq_some hl)
  rw [hr]
  refine ⟨Nat.sub_le _ _, rfl, ?_⟩
  simp only [List.length_append, List.length_take, List.length_drop]
  omega

/-- C20: when `best_match_ts` is the timestamp of a stored entry,
`remove_best_match_and_older` collects a non-empty list of matches (so `back()` and the two
non-emptiness assertions are safe), the erased index range `[start, end)` lies within the
stored sequence, and the number of matched indices below the write index is at most the
write index (so `assert(amount <= index)` holds); the call returns. -/
theorem C20_remove_assertions_hold {F : Type} (b : TimeAlignedBuffer F) (best_match_ts : Int)
    (hstored : ∃ e ∈ b.timestamped_frames, e.2 = best_match_ts) :
    ∃ first last,
      (collect_best_and_older best_match_ts 0 b.timestamped_frames).head? = some first ∧
      (collect_best_and_older best_match_ts 0 b.timestamped_frames).getLast? = some last ∧
      first.1 < last.1 + 1 ∧ last.1 + 1 ≤ b.timestamped_frames.length ∧
      ((collect_best_and_older best_match_ts 0 b.timestamped_frames).filter
        (fun m => decide (m.1 < b.index))).length ≤ b.index ∧
      ∃ r, b.remove_best_match_and_older best_match_ts = some r := by
  have hne : collect_best_and_older best_match_ts 0 b.timestamped_frames ≠ [] := by
    apply collect_ne_nil
    obtain ⟨e, he, heq⟩ := hstored
    exact ⟨e, he, le_of_eq heq⟩
  obtain ⟨first, rest, hcons⟩ := List.exists_cons_of_ne_nil hne
  have hh : (collect_best_and_older best_match_ts 0 b.timestamped_frames).head? = some first := by
    rw [hcons]; rfl
  have hl : (collect_best_and_older best_match_ts 0 b.timestamped_frames).getLast?
      = some ((collect_best_and_older best_match_ts 0 b.timestamped_frames).getLast hne) :=
    List.getLast?_eq_getLast _ hne
  have hmem := List.mem_of_getLast?_eq_some hl
  have hle := collect_head_le best_match_ts b.timestamped_frames 0 first hh _ hmem
  have hb := collect_bounds best_match_ts b.timestamped_frames 0 _ hmem
  have hamt := collect_amount_le best_match_ts b.timestamped_frames 0 b.index
  refine ⟨first, _, hh, hl, by omega, by omega, by omega, ?_⟩
  unfold TimeAlignedBuffer.remove_best_match_and_older
  simp only [hh, hl]
  rw [if_pos (by omega)]
  exact ⟨_, rfl⟩

/-- Witness of C20: the wrapped slots `[11, 12, 3, .., 10]` with write index `2` and the
stored timestamp `11`: the matches are the indices `0, 2, .., 9`, one of them below the
write index. -/
theorem C20_remove_assertions_hold_witness :
    ∃ first last,
      (collect_best_and_older 11 0
        [((11 : Nat), (11 : Int)), (12, 12), (3, 3), (4, 4), (5, 5), (6, 6), (7, 7), (8, 8),
          (9, 9), (10, 10)]).head? = some first ∧
      (collect_best_and_older 11 0
        [((11 : Nat), (11 : Int)), (12, 12), (3, 3), (4, 4), (5, 5), (6, 6), (7, 7), (8, 8),
          (9, 9), (10, 10)]).getLast? = some last ∧
      first.1 < last.1 + 1 ∧ last.1 + 1 ≤ 10 ∧
      ((collect_best_and_older 11 0
        [((11 : Nat), (11 : Int)), (12, 12), (3, 3), (4, 4), (5, 5), (6, 6), (7, 7), (8, 8),
          (9, 9), (10, 10)]).filter (fun m => decide (m.1 < 2))).length ≤ 2 ∧
      ∃ r, (TimeAlignedBuffer.mk 2 10 (0 : Nat) 0
        [(11, 11), (12, 12), (3, 3), (4, 4), (5, 5), (6, 6), (7, 7), (8, 8), (9, 9),
          (10, 10)]).remove_best_match_and_older 11 = some r :=
  C20_remove_assertions_hold (TimeAlignedBuffer.mk 2 10 (0 : Nat) 0
    [(11, 11), (12, 12), (3, 3), (4, 4), (5, 5), (6, 6), (7, 7), (8, 8), (9, 9), (10, 10)])
    11 (by decide)

/-! ## Consecutive puts on a fresh buffer -/

/-- One `put` on a buffer of capacity `10` that holds the last ten of the entries `done` put
so far, the `i`-th in slot `i mod 10`. -/
theorem put_slots_step {F : Type} (b : TimeAlignedBuffer F) (done : List (F × Int))
    (e : F × Int)
    (hlen : b.timestamped_frames.length = min done.length 10)
    (hidx : b.index = done.length % 10) (hn : b.n_timestamped_frames = 10)
    (hslots : ∀ i, i < done.length → done.length ≤ i + 10 →
      b.timestamped_frames[i % 10]? = done[i]?) :
    (b.put e).timestamped_frames.length = min (done ++ [e]).length 10 ∧
      (b.put e).index = (done ++ [e]).length % 10 ∧
      (b.put e).n_timestamped_frames = 10 ∧
      (∀ i, i < (done ++ [e]).length → (done ++ [e]).length ≤ i + 10 →
        (b.put e).timestamped_frames[i % 10]? = (done ++ [e])[i]?) := by
  have hindex : (b.put e).index
      = if b.index + 1 ≥ b.n_timestamped_frames then 0 else b.index + 1 := rfl
  have hindex' : (b.put e).index = (done ++ [e]).length % 10 := by
    rw [hindex, hn, hidx, List.length_append, List.length_singleton]
    split <;> omega
  simp only [List.length_append, List.length_singleton] at hindex' ⊢
  by_cases hk : done.length < 10
  · have hlen' : b.timestamped_frames.length = done.length := by omega
    have hidx' : b.index = done.length := by omega
    have hfr : (b.put e).timestamped_frames = b.timestamped_frames ++ [e] := by
      unfold TimeAlignedBuffer.put
      simp only [ge_iff_le, hlen', hidx', le_refl, if_true]
    refine ⟨?_, hindex', hn, ?_⟩
    · rw [hfr, List.length_append, List.length_singleton]; omega
    · intro i hi hwin
      have hmod : i % 10 = i := by omega
      rw [hfr, hmod]
      by_cases hik : i < done.length
      · rw [List.getElem?_append_left (by omega), List.getElem?_append_left hik]
        have := hslots i hik (by omega)
        rw [hmod] at this
        exact this
      · have hik' : i = done.length := by omega
        rw [hik', List.getElem?_append_right (by omega), List.getElem?_append_right (le_refl _),
          hlen']
  · have hlen' : b.timestamped_frames.length = 10 := by omega
    have hfr : (b.put e).timestamped_frames = b.timestamped_frames.set b.index e := by
      unfold TimeAlignedBuffer.put
      have : ¬ b.index ≥ b.timestamped_frames.length := by omega
      simp only [this, if_false]
    refine ⟨?_, hindex', hn, ?_⟩
    · rw [hfr, List.length_set]; omega
    · intro i hi hwin
      rw [hfr]
      by_cases hik : i < done.length
      · have hne : b.index ≠ i % 10 := by omega
        rw [List.getElem?_set_ne hne, List.getElem?_append_left hik]
        exact hslots i hik (by omega)
      · have hik' : i = done.length := by omega
        rw [hik', ← hidx, List.getElem?_set_self (by omega),
          List.getElem?_append_right (le_refl _)]
        simp

/-- The same for a sequence of puts. -/
theorem puts_slots {F : Type} (es : List (F × Int)) (b : TimeAlignedBuffer F)
    (done : List (F × Int))
    (hlen : b.timestamped_frames.length = min done.length 10)
    (hidx : b.index = done.length % 10) (hn : b.n_timestamped_frames = 10)
    (hslots : ∀ i, i < done.length → done.length ≤ i + 10 →
      b.timestamped_frames[i % 10]? = done[i]?) :
    (b.puts es).timestamped_frames.length = min (done ++ es).length 10 ∧
      (b.puts es).index = (done ++ es).length % 10 ∧
      (b.puts es).n_timestamped_frames = 10 ∧
      (∀ i, i < (done ++ es).length → (done ++ es).length ≤ i + 10 →
        (b.puts es).timestamped_frames[i % 10]? = (done ++ es)[i]?) := by
  induction es generalizing b done with
  | nil =>
    simp only [List.append_nil, TimeAlignedBuffer.puts]
    exact ⟨hlen, hidx, hn, hslots⟩
  | cons e es ih =>
    obtain ⟨h1, h2, h3, h4⟩ := put_slots_step b done e hlen hidx hn hslots
    have := ih (b.put e) (done ++ [e]) h1 h2 h3 h4
    rw [List.append_assoc] at this
    exact this

/-- C14: `k` puts on a freshly constructed buffer, with no `get_best_match_and_older` call in
between, leave `size() = min(k, 10)` and the `i`-th put (counting from `0`) of the last
`min(k, 10)` in slot `i mod 10`; once ten entries have been put, the write index points at
the entry put earliest among those stored, and the next put overwrites exactly that slot. -/
theorem C14_puts_fill_ring {F : Type} (default_item : F) (default_timestamp : Int)
    (es : List (F × Int)) :
    ((TimeAlignedBuffer.create default_item default_timestamp).puts es).size
        = min es.length 10 ∧
      (∀ i, i < es.length → es.length ≤ i + 10 →
        ((TimeAlignedBuffer.create default_item default_timestamp).puts
          es).timestamped_frames[i % 10]? = es[i]?) ∧
      ((TimeAlignedBuffer.create default_item default_timestamp).puts es).index
        = es.length % 10 ∧
      (10 ≤ es.length →
        ((TimeAlignedBuffer.create default_item default_timestamp).puts
          es).timestamped_frames[((TimeAlignedBuffer.create default_item
            default_timestamp).puts es).index]? = es[es.length - 10]? ∧
        ∀ e, (((TimeAlignedBuffer.create default_item default_timestamp).puts
          es).put e).timestamped_frames =
          ((TimeAlignedBuffer.create default_item default_timestamp).puts
            es).timestamped_frames.set
            ((TimeAlignedBuffer.create default_item default_timestamp).puts es).index e) := by
  obtain ⟨h1, h2, h3, h4⟩ := puts_slots es
    (TimeAlignedBuffer.create default_item default_timestamp) [] rfl rfl rfl
    (by intro i hi; simp at hi)
  simp only [List.nil_append] at h1 h2 h3 h4
  refine ⟨h1, h4, h2, ?_⟩
  intro hten
  refine ⟨?_, ?_⟩
  · have := h4 (es.length - 10) (by omega) (by omega)
    have hmod : (es.length - 10) % 10 = es.length % 10 := by omega
    rw [hmod] at this
    rw [h2]; exact this
  · intro e
    unfold TimeAlignedBuffer.put
    have : ¬ ((TimeAlignedBuffer.create default_item default_timestamp).puts es).index
        ≥ ((TimeAlignedBuffer.create default_item default_timestamp).puts
          es).timestamped_frames.length := by
      rw [h1, h2]; omega
    simp only [this, if_false]

/-- Witness of C14: twelve puts leave ten slots, the eleventh and twelfth entry in slots `0`
and `1`, and the write index `2`. -/
theorem C14_puts_fill_ring_witness :
    ((TimeAlignedBuffer.create (0 : Nat) 0).puts
      [(1, 1), (2, 2), (3, 3), (4, 4), (5, 5), (6, 6), (7, 7), (8, 8), (9, 9), (10, 10),
        (11, 11), (12, 12)]).size = min 12 10 ∧
    ((TimeAlignedBuffer.create (0 : Nat) 0).puts
      [(1, 1), (2, 2), (3, 3), (4, 4), (5, 5), (6, 6), (7, 7), (8, 8), (9, 9), (10, 10),
        (11, 11), (12, 12)]).index = 12 % 10 ∧
    ((TimeAlignedBuffer.create (0 : Nat) 0).puts
      [(1, 1), (2, 2), (3, 3), (4, 4), (5, 5), (6, 6), (7, 7), (8, 8), (9, 9), (10, 10),
        (11, 11), (12, 12)]).timestamped_frames
      = [(11, 11), (12, 12), (3, 3), (4, 4), (5, 5), (6, 6), (7, 7), (8, 8), (9, 9),
          (10, 10)] :=
  ⟨(C14_puts_fill_ring (0 : Nat) 0
      [(1, 1), (2, 2), (3, 3), (4, 4), (5, 5), (6, 6), (7, 7), (8, 8), (9, 9), (10, 10),
        (11, 11), (12, 12)]).1,
    (C14_puts_fill_ring (0 : Nat) 0
      [(1, 1), (2, 2), (3, 3), (4, 4), (5, 5), (6, 6), (7, 7), (8, 8), (9, 9), (10, 10),
        (11, 11), (12, 12)]).2.2.1,
    by decide⟩

/-! ## The capacity -/

/-- A `put` keeps the write index below the capacity and the size within the capacity. -/
theorem put_bounds {F : Type} (b : TimeAlignedBuffer F) (e : F × Int)
    (hidx : b.index < b.n_timestamped_frames)
    (hsize : b.timestamped_frames.length ≤ b.n_timestamped_frames) :
    (b.put e).n_timestamped_frames = b.n_timestamped_frames ∧
      (b.put e).timestamped_frames.length ≤ b.n_timestamped_frames ∧
      (b.put e).index < b.n_timestamped_frames := by
  have hindex : (b.put e).index
      = if b.index + 1 ≥ b.n_timestamped_frames then 0 else b.index + 1 := rfl
  refine ⟨rfl, ?_, by rw [hindex]; split <;> omega⟩
  unfold TimeAlignedBuffer.put
  simp only
  split
  · rw [List.length_append, List.length_singleton]; omega
  · rw [List.length_set]; exact hsize

/-- A returning call that does not take the capacity-doubling branch either finds the buffer
empty and leaves it alone, or is a removal. -/
theorem get_not_doubling {F : Type} [Inhabited F] (b : TimeAlignedBuffer F) (q : Int)
    (r : TimeAlignedBuffer F × List F × List Int)
    (hget : b.get_best_match_and_older q = some r)
    (hbranch : b.takes_doubling_branch q = false) :
    r.1 = b ∨ ∃ x, b.remove_best_match_and_older x = some r := by
  unfold TimeAlignedBuffer.takes_doubling_branch at hbranch
  by_cases hlen : b.timestamped_frames.length = 0
  · left
    unfold TimeAlignedBuffer.get_best_match_and_older at hget
    rw [if_pos hlen] at hget
    rw [← Option.some.inj hget]
  · right
    have hne : b.timestamped_frames ≠ [] := by
      intro h; rw [h] at hlen; exact hlen rfl
    rw [if_neg hlen] at hbranch
    cases hfind : b.find_oldest_and_best_matching q with
    | none =>
      unfold TimeAlignedBuffer.get_best_match_and_older at hget
      rw [if_neg hlen, hfind] at hget
      exact Option.noConfusion hget
    | some res =>
      obtain ⟨o_frame, o_ts, m_ts⟩ := res
      rw [hfind] at hbranch
      simp only [decide_eq_false_iff_not] at hbranch
      rw [get_of_find b q o_frame o_ts m_ts hne hfind, if_neg hbranch] at hget
      exact ⟨m_ts, hget⟩

/-- A returning call that takes the capacity-doubling branch changes the capacity only. -/
theorem get_doubling {F : Type} [Inhabited F] (b : TimeAlignedBuffer F) (q : Int)
    (r : TimeAlignedBuffer F × List F × List Int)
    (hget : b.get_best_match_and_older q = some r)
    (hbranch : b.takes_doubling_branch q = true) :
    r.1 = { b with n_timestamped_frames := (b.n_timestamped_frames * 2) % SIZE_MODULUS } := by
  unfold TimeAlignedBuffer.takes_doubling_branch at hbranch
  by_cases hlen : b.timestamped_frames.length = 0
  · rw [if_pos hlen] at hbranch
    exact Bool.noConfusion hbranch
  · have hne : b.timestamped_frames ≠ [] := by
      intro h; rw [h] at hlen; exact hlen rfl
    rw [if_neg hlen] at hbranch
    cases hfind : b.find_oldest_and_best_matching q with
    | none =>
      rw [hfind] at hbranch
      exact Bool.noConfusion hbranch
    | some res =>
      obtain ⟨o_frame, o_ts, m_ts⟩ := res
      rw [hfind] at hbranch
      simp only [decide_eq_true_eq] at hbranch
      rw [get_of_find b q o_frame o_ts m_ts hne hfind, if_pos hbranch] at hget
      by_cases hbest : m_ts = o_ts
      · rw [if_pos hbest] at hget
        rw [← Option.some.inj hget]
      · rw [if_neg hbest] at hget
        exact Option.noConfusion hget

/-- C18: in every state reached from a freshly constructed buffer by `put` and
`get_best_match_and_older` calls with arbitrary timestamps, the capacity `n` being the
unbounded natural number the code computes as long as `n * 2` fits a `size_t`,
`n = 10 * 2^k` for `k` the number of capacity-doubling calls so far, `size() ≤ n`, and the
write index is strictly below `n`. -/
theorem C18_capacity_invariant {F : Type} [Inhabited F] (k : Nat) (b : TimeAlignedBuffer F)
    (h : ReachableDoublings k b) :
    b.n_timestamped_frames = 10 * 2 ^ k ∧ b.size ≤ b.n_timestamped_frames ∧
      b.index < b.n_timestamped_frames := by
  unfold TimeAlignedBuffer.size
  induction h with
  | create d t =>
    simp [TimeAlignedBuffer.create]
  | @put k' b' e _ ih =>
    obtain ⟨h1, h2, h3⟩ := ih
    obtain ⟨g1, g2, g3⟩ := put_bounds b' e h3 h2
    rw [g1]
    exact ⟨h1, g2, g3⟩
  | @get k' b0 b1 q fs ts _ hget hbranch ih =>
    obtain ⟨h1, h2, h3⟩ := ih
    rcases get_not_doubling b0 q _ hget hbranch with heq | ⟨x, hrem⟩
    · simp only at heq
      rw [heq]
      exact ⟨h1, h2, h3⟩
    · obtain ⟨g1, g2, g3⟩ := remove_bounds b0 x _ hrem
      simp only at g1 g2 g3
      rw [g2]
      exact ⟨h1, by omega, by omega⟩
  | @get_doubling k' b0 b1 q fs ts _ hget hbranch hfit ih =>
    obtain ⟨h1, h2, h3⟩ := ih
    have heq := get_doubling b0 q _ hget hbranch
    simp only at heq
    rw [heq]
    simp only
    rw [Nat.mod_eq_of_lt hfit]
    refine ⟨?_, by omega, by omega⟩
    rw [h1, pow_succ]; ring

/-- Witness of C18: a put followed by two queries below the stored timestamp doubles the
capacity twice, from `10` to `40`. -/
theorem C18_capacity_invariant_witness :
    (TimeAlignedBuffer.mk 1 40 (0 : Nat) 0 [(7, 5)]).n_timestamped_frames = 10 * 2 ^ 2 ∧
      (TimeAlignedBuffer.mk 1 40 (0 : Nat) 0 [(7, 5)]).size ≤ 40 ∧
      (TimeAlignedBuffer.mk 1 40 (0 : Nat) 0 [(7, 5)]).index < 40 :=
  C18_capacity_invariant 2 (TimeAlignedBuffer.mk 1 40 (0 : Nat) 0 [(7, 5)])
    (@ReachableDoublings.get_doubling Nat _ 1
      (TimeAlignedBuffer.mk 1 20 (0 : Nat) 0 [(7, 5)])
      (TimeAlignedBuffer.mk 1 40 (0 : Nat) 0 [(7, 5)]) 3 [7] [5]
      (@ReachableDoublings.get_doubling Nat _ 0
        ((TimeAlignedBuffer.create (0 : Nat) 0).put (7, 5))
        (TimeAlignedBuffer.mk 1 20 (0 : Nat) 0 [(7, 5)]) 3 [7] [5]
        (ReachableDoublings.put (7, 5) (ReachableDoublings.create 0 0))
        (by decide) (by decide) (by decide))
      (by decide) (by decide) (by decide))

/-! ## The removal after a wrap-around -/

/-- The twelfth put overwrites slot `1`: the slots are `[11, 12, 3, .., 10]`, write index
`2`. -/
theorem reachable_twelve_puts :
    ReachableIncreasing (some 12)
      (TimeAlignedBuffer.mk 2 10 (0 : Nat) 0
        [(11, 11), (12, 12), (3, 3), (4, 4), (5, 5), (6, 6), (7, 7), (8, 8), (9, 9),
          (10, 10)]) :=
  ReachableIncreasing.put (12, 12) reachable_eleven_puts (by intro t h; cases h; decide)

/-- C15, the code at the failing input: after twelve puts with the timestamps `1 .. 12` the
query `11` has the best match `11`; the matches are the slots `0, 2, .., 9`, the erased range
is `[0, 10)`, so the entry with timestamp `12` in slot `1`, newer than the best match, leaves
the buffer without being returned. -/
theorem C15_erased_range_drops_newer_entry :
    ReachableIncreasing (some 12)
        (TimeAlignedBuffer.mk 2 10 (0 : Nat) 0
          [(11, 11), (12, 12), (3, 3), (4, 4), (5, 5), (6, 6), (7, 7), (8, 8), (9, 9),
            (10, 10)]) ∧
      (TimeAlignedBuffer.mk 2 10 (0 : Nat) 0
        [(11, 11), (12, 12), (3, 3), (4, 4), (5, 5), (6, 6), (7, 7), (8, 8), (9, 9),
          (10, 10)]).find_oldest_and_best_matching 11 = some (3, 3, 11) ∧
      (TimeAlignedBuffer.mk 2 10 (0 : Nat) 0
        [(11, 11), (12, 12), (3, 3), (4, 4), (5, 5), (6, 6), (7, 7), (8, 8), (9, 9),
          (10, 10)]).get_best_match_and_older 11 =
        some (TimeAlignedBuffer.mk 1 10 10 0 [],
          [11, 3, 4, 5, 6, 7, 8, 9, 10], [11, 3, 4, 5, 6, 7, 8, 9, 10]) :=
  ⟨reachable_twelve_puts, by decide, by decide⟩

/-- C19, the code at the failing input: after twelve puts with the timestamps `1 .. 12` and
the query `11`, every slot is erased but the write index is lowered by the one match below
it only: the write index is `1` and `size()` is `0`. -/
theorem C19_index_above_size :
    ∃ b' out_frames out_timestamps,
      (TimeAlignedBuffer.mk 2 10 (0 : Nat) 0
        [(11, 11), (12, 12), (3, 3), (4, 4), (5, 5), (6, 6), (7, 7), (8, 8), (9, 9),
          (10, 10)]).get_best_match_and_older 11 = some (b', out_frames, out_timestamps) ∧
      ReachableIncreasing (some 12) b' ∧ b'.index = 1 ∧ b'.size = 0 :=
  ⟨TimeAlignedBuffer.mk 1 10 10 0 [], [11, 3, 4, 5, 6, 7, 8, 9, 10],
    [11, 3, 4, 5, 6, 7, 8, 9, 10], by decide,
    ReachableIncreasing.get 11 [11, 3, 4, 5, 6, 7, 8, 9, 10] [11, 3, 4, 5, 6, 7, 8, 9, 10]
      reachable_twelve_puts (by decide) (Or.inl rfl),
    rfl, rfl⟩

end timebuf

namespace rtsp

/-! ## The rate estimate of `FrameBuffer::put` -/

theorem update_window_getLast (w : List Int) (t : Int) :
    (update_window w t).getLast? = some t := by
  unfold update_window
  simp only [List.length_append, List.length_singleton]
  split
  · cases w with
    | nil => simp [n_timestamps] at *
    | cons a w => simp
  · simp

theorem put_window (b : FrameBuffer) (t : Int) :
    (b.put t).last_n_timestamps = update_window b.last_n_timestamps t := by
  unfold FrameBuffer.put
  simp only
  split
  · split
    · rfl
    · split <;> rfl
  · rfl

/-- C10 (amended): a `put` whose timestamp is smaller than the oldest timestamp of the
window, as that window stands after the timestamp has been appended and the window trimmed
to ten values, leaves the rate estimate unchanged. -/
theorem C10_put_older_than_window_keeps_rate (b : FrameBuffer) (t t0 : Int)
    (hhead : (update_window b.last_n_timestamps t).head? = some t0) (hlt : t < t0) :
    (b.put t).fps = b.fps := by
  have hlast := update_window_getLast b.last_n_timestamps t
  have h0 : (update_window b.last_n_timestamps t).headD 0 = t0 := by
    rw [List.headD_eq_head?_getD, hhead]; rfl
  have h1 : (update_window b.last_n_timestamps t).getLastD 0 = t := by
    rw [List.getLastD_eq_getLast?, hlast]; rfl
  unfold FrameBuffer.put
  simp only [h0, h1]
  split
  · rfl
  · rfl

/-- Witness of C10: the window `[10, 20]` and a put at `5`. -/
theorem C10_put_older_than_window_keeps_rate_witness :
    ((FrameBuffer.mk [10, 20] (some 30)).put 5).fps = some 30 :=
  C10_put_older_than_window_keeps_rate (FrameBuffer.mk [10, 20] (some 30)) 5 10
    (by decide) (by decide)

/-- C10 as stated fails: after puts at `1` and `5` (rate `2.5e8`), a put at `3`, smaller than
the preceding timestamp `5` but not smaller than the oldest timestamp `1` of the window,
recomputes the rate to `2 / (2 / 1e9) = 1e9`. -/
theorem C10_counterexample :
    ¬ ∀ (b : FrameBuffer) (t prev : Int),
        b.last_n_timestamps.getLast? = some prev → t < prev → (b.put t).fps = b.fps := by
  intro h
  have h1 := h ((FrameBuffer.create 100 30).puts [1, 5]) 3 5
    (by simp [FrameBuffer.puts, put_window, FrameBuffer.create, update_window, n_timestamps])
    (by decide)
  have h2 : (((FrameBuffer.create 100 30).puts [1, 5]).put 3).fps = some 1000000000 := by
    simp [FrameBuffer.puts, FrameBuffer.put, FrameBuffer.create, update_window, n_timestamps,
      wrap64, a_day_in_ns, double_div]
  have h3 : ((FrameBuffer.create 100 30).puts [1, 5]).fps = some 250000000 := by
    simp [FrameBuffer.puts, FrameBuffer.put, FrameBuffer.create, update_window, n_timestamps,
      wrap64, a_day_in_ns, double_div]
    norm_num
  rw [h2, h3] at h1
  norm_num at h1

/-- C11: whenever, after a `put`, the newest timestamp of the window exceeds the oldest by
more than 86 400 000 000 000 ns, the difference `t1 - t0` taken in signed 64-bit arithmetic,
the rate estimate after the `put` equals the rate estimate before it. -/
theorem C11_put_gap_over_a_day_keeps_rate (b : FrameBuffer) (t : Int)
    (hgap : wrap64 ((update_window b.last_n_timestamps t).getLastD 0
        - (update_window b.last_n_timestamps t).headD 0) > 86400000000000) :
    (b.put t).fps = b.fps := by
  unfold FrameBuffer.put
  simp only
  by_cases hlen : (update_window b.last_n_timestamps t).length ≥ 2
  · rw [if_pos hlen]
    by_cases hlt : (update_window b.last_n_timestamps t).getLastD 0
        < (update_window b.last_n_timestamps t).headD 0
    · rw [if_pos hlt]
    · rw [if_neg hlt, if_pos (by unfold a_day_in_ns; exact hgap)]
  · rw [if_neg hlen]

/-- Witness of C11: after puts at `0` and `10^9` (rate `1`), a put at `10^14` is more than a
day after the oldest timestamp of the window and leaves the rate alone. -/
theorem C11_put_gap_over_a_day_keeps_rate_witness :
    ((FrameBuffer.mk [0, 1000000000] (some 1)).put 100000000000000).fps = some 1 :=
  C11_put_gap_over_a_day_keeps_rate (FrameBuffer.mk [0, 1000000000] (some 1))
    100000000000000 (by decide)

/-- C12: for a capacity `c` and a reported queue size `s`, both `size_t` values,
`FrameBuffer::room` returns `0` when `s > c` and the difference `c - s` otherwise; the
result is the true difference, not a wrap-around of the unsigned subtraction, and never
exceeds `c`. -/
theorem C12_room_clamped (c s : Nat) (hc : c < SIZE_MODULUS) (hs : s < SIZE_MODULUS) :
    (s > c → FrameBuffer.room c s = 0) ∧
      (s ≤ c → ((FrameBuffer.room c s : Nat) : Int) = (c : Int) - (s : Int)) ∧
      FrameBuffer.room c s ≤ c := by
  unfold FrameBuffer.room size_sub
  unfold SIZE_MODULUS at hc hs ⊢
  refine ⟨?_, ?_, ?_⟩
  · intro h
    rw [if_pos h]
  · intro h
    rw [if_neg (by omega)]
    omega
  · split
    · omega
    · omega

/-- Witness of C12: a queue of capacity `10` reporting `3` entries has room `7`; reporting
`12` entries it has room `0`. -/
theorem C12_room_clamped_witness :
    FrameBuffer.room 10 12 = 0 ∧ ((FrameBuffer.room 10 3 : Nat) : Int) = 10 - 3 ∧
      FrameBuffer.room 10 3 ≤ 10 :=
  ⟨(C12_room_clamped 10 12 (by decide) (by decide)).1 (by decide),
    (C12_room_clamped 10 3 (by decide) (by decide)).2.1 (by decide),
    (C12_room_clamped 10 3 (by decide) (by decide)).2.2⟩

/-- C17, the code at the failing input: on a `FrameBuffer` constructed with the rate `30`,
two puts with the same timestamp `5` leave the window `[5, 5]`; the test `ts1 < ts0` does
not fire, the span `ts1 - ts0` is `0`, and the rate is recomputed as `1 / 0`. -/
theorem C17_equal_timestamps_divide_by_zero :
    ((FrameBuffer.create 100 30).puts [5, 5]).last_n_timestamps = [5, 5] ∧
      wrap64 (5 - 5) = 0 ∧
      ((FrameBuffer.create 100 30).puts [5, 5]).fps = none := by
  refine ⟨?_, by decide, ?_⟩
  · simp [FrameBuffer.puts, put_window, FrameBuffer.create, update_window, n_timestamps]
  · simp [FrameBuffer.puts, FrameBuffer.put, FrameBuffer.create, update_window, n_timestamps,
      wrap64, a_day_in_ns, double_div]

end rtsp
